import Mathlib

set_option linter.unusedSectionVars false

/-!
Verification of the pygui reconciliation engine (src/pygui/__init__.py).

The engine's data is embedded shallowly:
* a node descriptor (`VNode`, the Python `VNode` namedtuple) is a rose tree
  carrying a host type tag, a property map and child descriptors;
* a property map (a Python dict) is an association list with pairwise
  distinct keys — Python dicts cannot hold duplicate keys, so wherever the
  code reads `props[key]` for a `key` obtained by iterating the same dict,
  the embedding uses the value of the entry being iterated;
* the renderer backend is abstract: the model records the sequence of
  backend calls (`BCall`) the engine makes, in order;
* fibers are embedded by value: `FiberT` is a fiber together with the fields
  the commit phase reads (type, dom, effect tag, props snapshot, the
  alternate fiber's props snapshot) and its reconciled children.

Statements about the work loop, the scheduler and the render trigger use
explicit state records defined further below.
-/

/-- Effect tag of a work-in-progress fiber (src/pygui/types.py EffectTag),
values per the spec: PLACEMENT, UPDATE, DELETION. -/
inductive EffectTag where
  | placement
  | update
  | deletion
deriving DecidableEq, Repr

/-- Python strings are embedded as character lists so that every string
operation the code performs (startswith, lower, slicing, equality) is an
executable list function. -/
abbrev Str := List Char

/-- Backend calls issued through the Renderer interface.  `createEl t`
stands for create_element(t) (the returned node is identified by the Nat
the caller allocates for it), the rest carry the node ids they act on. -/
inductive BCall (V : Type) where
  | createEl (t : Str)
  | insertEl (child parent : Nat)
  | removeEl (child parent : Nat)
  | setAttr (dom : Nat) (key : Str) (val : V)
  | clearAttr (dom : Nat) (key : Str) (val : V)
  | addListener (dom : Nat) (event : Str) (handler : V)
  | removeListener (dom : Nat) (event : Str) (handler : V)
deriving DecidableEq, Repr

/-- Property dictionary: association list; a faithful image of a Python
dict has pairwise distinct keys (`Nodup` on the key list). -/
abbrev PropsMap (V : Type) := List (Str × V)

/-- Dictionary lookup, `d.get(key)`: first entry whose key matches. -/
def getv {V : Type} : PropsMap V → Str → Option V
  | [], _ => none
  | (k, v) :: r, key => if k = key then some v else getv r key

/-- Predicate `is_event` from update_dom: the key starts with "on". -/
def isEvent (key : Str) : Bool := "on".data.isPrefixOf key

/-- Event name extraction from update_dom, `name.lower()[2:]`; the keys the
engine sees are ASCII event names, for which Char.toLower is the Python
str.lower. -/
def evName (key : Str) : Str := (key.map Char.toLower).drop 2

/-- Embedding of PyGui.update_dom (src/pygui/__init__.py lines 339-388):
the four loops, in order — remove old event listeners, remove old
properties, set new or changed properties, add new event listeners.
`noneV` is the distinguished element of `V` standing for Python None:
`other.get(key)` returns it when the key is absent, so the value test
`is_new(val, other, key)`, i.e. `val != other.get(key)`, cannot tell a
stored None from an absent key — hence the `(getv other p.1).getD noneV`
comparisons below.  The presence tests of the first two loops
(`name not in next_props`, `key in next_props`) are separate and exact
(`isSome`/`isNone`).  In the fourth loop the handler passed to
add_event_listener is `next_props[name]`, which for a dict (distinct keys)
is the value of the entry being iterated. -/
def updateDom {V : Type} [DecidableEq V] (noneV : V) (dom : Nat)
    (prev next : PropsMap V) : List (BCall V) :=
  ((prev.filter fun p =>
      isEvent p.1 && (getv next p.1).isSome &&
        decide ((getv next p.1).getD noneV ≠ p.2)).map
    fun p => BCall.removeListener dom (evName p.1) p.2)
  ++ ((prev.filter fun p => !isEvent p.1 && (getv next p.1).isNone).map
    fun p => BCall.clearAttr dom p.1 p.2)
  ++ ((next.filter fun p => !isEvent p.1 && decide ((getv prev p.1).getD noneV ≠ p.2)).map
    fun p => BCall.setAttr dom p.1 p.2)
  ++ ((next.filter fun p => isEvent p.1 && decide ((getv prev p.1).getD noneV ≠ p.2)).map
    fun p => BCall.addListener dom (evName p.1) p.2)

/-- Number of set_attribute calls for a given key in a call sequence. -/
def countSet {V : Type} [DecidableEq V] (calls : List (BCall V)) (key : Str) : Nat :=
  calls.countP fun c => match c with
    | .setAttr _ k _ => decide (k = key)
    | _ => false

/-- Number of clear_attribute calls for a given key in a call sequence. -/
def countClear {V : Type} [DecidableEq V] (calls : List (BCall V)) (key : Str) : Nat :=
  calls.countP fun c => match c with
    | .clearAttr _ k _ => decide (k = key)
    | _ => false

/-- Number of remove_event_listener calls with a given event type and
handler in a call sequence. -/
def countRemoveListener {V : Type} [DecidableEq V] (calls : List (BCall V))
    (event : Str) (handler : V) : Nat :=
  calls.countP fun c => match c with
    | .removeListener _ e h => decide (e = event) && decide (h = handler)
    | _ => false

/-- Number of add_event_listener calls with a given event type and handler
in a call sequence. -/
def countAddListener {V : Type} [DecidableEq V] (calls : List (BCall V))
    (event : Str) (handler : V) : Nat :=
  calls.countP fun c => match c with
    | .addListener _ e h => decide (e = event) && decide (h = handler)
    | _ => false

/-- Number of remove_event_listener calls with a given event type (any
handler) in a call sequence. -/
def countRemoveListenerAny {V : Type} [DecidableEq V] (calls : List (BCall V))
    (event : Str) : Nat :=
  calls.countP fun c => match c with
    | .removeListener _ e _ => decide (e = event)
    | _ => false

section GetvLemmas

variable {V : Type} [DecidableEq V]

theorem getv_cons_self (k : Str) (v : V) (r : PropsMap V) :
    getv ((k, v) :: r) k = some v := by
  simp [getv]

theorem getv_cons_ne (k k' : Str) (v : V) (r : PropsMap V) (h : k' ≠ k) :
    getv ((k', v) :: r) k = getv r k := by
  simp [getv, h]

theorem getv_eq_none_iff (l : PropsMap V) (k : Str) :
    getv l k = none ↔ k ∉ l.map Prod.fst := by
  induction l with
  | nil => simp [getv]
  | cons p r ih =>
    obtain ⟨k', v'⟩ := p
    by_cases h : k' = k
    · subst h
      rw [List.map_cons]
      constructor
      · intro hc
        rw [getv_cons_self] at hc
        exact Option.noConfusion hc
      · intro hc
        exact absurd (List.mem_cons_self _ _) hc
    · rw [getv_cons_ne _ _ _ _ h, ih, List.map_cons]
      constructor
      · intro hn hm
        rcases List.mem_cons.mp hm with h1 | h1
        · exact h h1.symm
        · exact hn h1
      · intro hn hm
        exact hn (List.mem_cons_of_mem _ hm)

theorem getv_mem (l : PropsMap V) (k : Str) (v : V) (h : getv l k = some v) :
    (k, v) ∈ l := by
  induction l with
  | nil => simp [getv] at h
  | cons p r ih =>
    obtain ⟨k', v'⟩ := p
    by_cases hk : k' = k
    · subst hk
      rw [getv_cons_self] at h
      simp_all
    · rw [getv_cons_ne _ _ _ _ hk] at h
      simp [ih h]

end GetvLemmas

section CountLemmas

variable {V : Type} [DecidableEq V]

/-- Count of matches for a keyed predicate over a dict with distinct keys
whose key `k` holds value `v`: only the entry `(k, v)` can match. -/
theorem countP_key_some (l : PropsMap V) (k : Str) (v : V)
    (hnd : (l.map Prod.fst).Nodup) (hget : getv l k = some v)
    (q : Str × V → Bool) :
    l.countP (fun p => decide (p.1 = k) && q p) = if q (k, v) then 1 else 0 := by
  induction l with
  | nil => simp [getv] at hget
  | cons p r ih =>
    obtain ⟨k', v'⟩ := p
    simp only [List.map_cons, List.nodup_cons] at hnd
    by_cases hk : k' = k
    · subst hk
      rw [getv_cons_self] at hget
      injection hget with hv
      subst hv
      have hrest : r.countP (fun p => decide (p.1 = k') && q p) = 0 := by
        rw [List.countP_eq_zero]
        intro p hp
        simp only [Bool.and_eq_true, decide_eq_true_eq]
        rintro ⟨h1, -⟩
        exact hnd.1 (h1 ▸ List.mem_map_of_mem Prod.fst hp)
      rw [List.countP_cons, hrest]
      by_cases hq : q (k', v') <;> simp [hq]
    · rw [getv_cons_ne _ _ _ _ hk] at hget
      rw [List.countP_cons, ih hnd.2 hget]
      simp [hk]

/-- Count of matches for a keyed predicate when key `k` is absent. -/
theorem countP_key_none (l : PropsMap V) (k : Str)
    (hget : getv l k = none) (q : Str × V → Bool) :
    l.countP (fun p => decide (p.1 = k) && q p) = 0 := by
  rw [List.countP_eq_zero]
  intro p hp
  simp only [Bool.and_eq_true, decide_eq_true_eq]
  rintro ⟨h1, -⟩
  rw [getv_eq_none_iff] at hget
  exact hget (h1 ▸ List.mem_map_of_mem Prod.fst hp)

end CountLemmas

section UpdateDomCounts

variable {V : Type} [DecidableEq V]

/-- A mapped list contributes no matches when the predicate rejects every
image. -/
theorem countP_map_eq_zero {A B : Type} (l : List A) (f : A → B) (p : B → Bool)
    (h : ∀ a, p (f a) = false) : (l.map f).countP p = 0 := by
  rw [List.countP_map]
  exact List.countP_eq_zero.mpr fun a _ => by simp [Function.comp, h a]

/-- Set_attribute calls for key `k` come only from the third loop of
update_dom. -/
theorem countSet_updateDom (noneV : V) (dom : Nat) (prev next : PropsMap V) (k : Str) :
    countSet (updateDom noneV dom prev next) k =
      next.countP fun p =>
        decide (p.1 = k) && (!isEvent p.1 && decide ((getv prev p.1).getD noneV ≠ p.2)) := by
  unfold updateDom countSet
  simp only [List.countP_append, List.countP_map, List.countP_filter, Function.comp_def,
    Bool.false_and, Bool.and_false, List.countP_false, Function.const_apply, Nat.zero_add,
    Nat.add_zero]

/-- Clear_attribute calls for key `k` come only from the second loop of
update_dom. -/
theorem countClear_updateDom (noneV : V) (dom : Nat) (prev next : PropsMap V) (k : Str) :
    countClear (updateDom noneV dom prev next) k =
      prev.countP fun p =>
        decide (p.1 = k) && (!isEvent p.1 && (getv next p.1).isNone) := by
  unfold updateDom countClear
  simp only [List.countP_append, List.countP_map, List.countP_filter, Function.comp_def,
    Bool.false_and, Bool.and_false, List.countP_false, Function.const_apply, Nat.zero_add,
    Nat.add_zero]

/-- Remove_event_listener calls come only from the first loop of
update_dom. -/
theorem countRemoveListener_updateDom (noneV : V) (dom : Nat) (prev next : PropsMap V)
    (et : Str) (hd : V) :
    countRemoveListener (updateDom noneV dom prev next) et hd =
      prev.countP fun p =>
        (isEvent p.1 && decide (evName p.1 = et)) &&
          ((getv next p.1).isSome && decide ((getv next p.1).getD noneV ≠ p.2) &&
            decide (p.2 = hd)) := by
  unfold updateDom countRemoveListener
  simp only [List.countP_append, List.countP_map, List.countP_filter, Function.comp_def,
    Bool.false_and, Bool.and_false, List.countP_false, Function.const_apply, Nat.zero_add,
    Nat.add_zero]
  apply List.countP_congr
  intro x hx
  cases h1 : isEvent x.1 <;> cases h2 : (getv next x.1).isSome <;>
    cases h3 : decide (evName x.1 = et) <;>
      cases h4 : decide ((getv next x.1).getD noneV ≠ x.2) <;>
        cases h5 : decide (x.2 = hd) <;> simp_all

/-- Add_event_listener calls come only from the fourth loop of
update_dom. -/
theorem countAddListener_updateDom (noneV : V) (dom : Nat) (prev next : PropsMap V)
    (et : Str) (hd : V) :
    countAddListener (updateDom noneV dom prev next) et hd =
      next.countP fun p =>
        (isEvent p.1 && decide (evName p.1 = et)) &&
          (decide ((getv prev p.1).getD noneV ≠ p.2) && decide (p.2 = hd)) := by
  unfold updateDom countAddListener
  simp only [List.countP_append, List.countP_map, List.countP_filter, Function.comp_def,
    Bool.false_and, Bool.and_false, List.countP_false, Function.const_apply, Nat.zero_add,
    Nat.add_zero]
  apply List.countP_congr
  intro x hx
  cases h1 : isEvent x.1 <;> cases h3 : decide (evName x.1 = et) <;>
    cases h4 : decide ((getv prev x.1).getD noneV ≠ x.2) <;> cases h5 : decide (x.2 = hd) <;>
      simp_all

/-- Remove_event_listener calls counted by event type only, reduced to the
first loop of update_dom. -/
theorem countRemoveListenerAny_updateDom (noneV : V) (dom : Nat) (prev next : PropsMap V)
    (et : Str) :
    countRemoveListenerAny (updateDom noneV dom prev next) et =
      prev.countP fun p =>
        (isEvent p.1 && decide (evName p.1 = et)) &&
          ((getv next p.1).isSome && decide ((getv next p.1).getD noneV ≠ p.2)) := by
  unfold updateDom countRemoveListenerAny
  simp only [List.countP_append, List.countP_map, List.countP_filter, Function.comp_def,
    Bool.false_and, Bool.and_false, List.countP_false, Function.const_apply, Nat.zero_add,
    Nat.add_zero]
  apply List.countP_congr
  intro x hx
  cases h1 : isEvent x.1 <;> cases h2 : (getv next x.1).isSome <;>
    cases h3 : decide (evName x.1 = et) <;>
      cases h4 : decide ((getv next x.1).getD noneV ≠ x.2) <;>
        simp_all

end UpdateDomCounts

section EventKeyLemmas

variable {V : Type} [DecidableEq V]

/-- Count of matches for an event-name-keyed predicate over a dict whose
event keys have pairwise distinct lowered event names: only the entry with
key `k` itself can match the event name of `k`. -/
theorem countP_event_key (l : PropsMap V) (k : Str) (a : V)
    (hnd : (l.map Prod.fst).Nodup)
    (hev : ((l.filter fun p => isEvent p.1).map fun p => evName p.1).Nodup)
    (hk : isEvent k = true) (hget : getv l k = some a) (q : Str × V → Bool) :
    l.countP (fun p => (isEvent p.1 && decide (evName p.1 = evName k)) && q p) =
      if q (k, a) then 1 else 0 := by
  induction l with
  | nil => simp [getv] at hget
  | cons p r ih =>
    obtain ⟨k1, v1⟩ := p
    simp only [List.map_cons, List.nodup_cons] at hnd
    by_cases hkk : k1 = k
    · subst hkk
      rw [getv_cons_self] at hget
      injection hget with hv
      subst hv
      rw [List.filter_cons_of_pos (by simpa using hk), List.map_cons, List.nodup_cons] at hev
      have hrest :
          r.countP (fun p => (isEvent p.1 && decide (evName p.1 = evName k1)) && q p) = 0 := by
        rw [List.countP_eq_zero]
        intro p hp hc
        simp only [Bool.and_eq_true, decide_eq_true_eq] at hc
        obtain ⟨⟨hpe, hpev⟩, -⟩ := hc
        have hmem : evName p.1 ∈ (r.filter fun p => isEvent p.1).map fun p => evName p.1 :=
          List.mem_map_of_mem _ (List.mem_filter.mpr ⟨hp, by simpa using hpe⟩)
        exact hev.1 (hpev ▸ hmem)
      rw [List.countP_cons, hrest, Nat.zero_add]
      simp [hk]
    · rw [getv_cons_ne _ _ _ _ hkk] at hget
      have hhead : ((isEvent k1 && decide (evName k1 = evName k)) && q (k1, v1)) = false := by
        cases he1 : isEvent k1 with
        | false => simp
        | true =>
          have hkmem : (k, a) ∈ r := getv_mem r k a hget
          have hkfil : evName k ∈ (r.filter fun p => isEvent p.1).map fun p => evName p.1 :=
            List.mem_map_of_mem _ (List.mem_filter.mpr ⟨hkmem, by simpa using hk⟩)
          rw [List.filter_cons_of_pos (by simpa using he1), List.map_cons,
            List.nodup_cons] at hev
          have hne : evName k1 ≠ evName k := fun hcontra => hev.1 (hcontra ▸ hkfil)
          simp [hne]
      have hevr : ((r.filter fun p => isEvent p.1).map fun p => evName p.1).Nodup := by
        by_cases he1 : isEvent k1 = true
        · rw [List.filter_cons_of_pos (by simpa using he1), List.map_cons,
            List.nodup_cons] at hev
          exact hev.2
        · rwa [List.filter_cons_of_neg (by simpa using he1)] at hev
      rw [List.countP_cons, hhead, ih hnd.2 hevr hget]
      simp

end EventKeyLemmas

/-- Number of listener-related calls (add_event_listener or
remove_event_listener) in a call sequence. -/
def countListenerCalls {V : Type} [DecidableEq V] (calls : List (BCall V)) : Nat :=
  calls.countP fun c => match c with
    | .addListener _ _ _ => true
    | .removeListener _ _ _ => true
    | _ => false

/-- C4 [counterexample]: the claim says a newly present key gets exactly one
set_attribute call, but with noneV (the model of Python None, the default of
dict.get) as the new value the source makes none: is_new(val, prev_props,
key) is val != prev_props.get(key), and for an absent key the right side is
None, equal to a stored None.  Concretely, update_dom(dom, prev={},
next={x: None}) emits no set_attribute call, though the key map premises of
the claim (distinct keys, no listener-shaped keys) and the newly-present
premise (absent before, present after) all hold. -/
theorem claim_C4_counterexample :
    ((([] : PropsMap Nat).map Prod.fst).Nodup ∧
      (([("x".data, 0)] : PropsMap Nat).map Prod.fst).Nodup ∧
      (∀ p ∈ ([] : PropsMap Nat), isEvent p.1 = false) ∧
      (∀ p ∈ ([("x".data, 0)] : PropsMap Nat), isEvent p.1 = false) ∧
      getv ([] : PropsMap Nat) "x".data = none ∧
      getv ([("x".data, 0)] : PropsMap Nat) "x".data = some 0) ∧
    ¬ countSet (updateDom 0 5 ([] : PropsMap Nat) [("x".data, 0)]) "x".data = 1 :=
  ⟨⟨by decide, by decide, by decide, by decide, by decide, by decide⟩, by decide⟩

/-- C4 [amended]: for non-listener property maps, update_dom emits exactly
one set_attribute call for a key whose value changed, exactly one
clear_attribute and no set_attribute for a key that disappeared, exactly one
set_attribute for a newly present key whose value differs from None
(modelled by noneV) but none when the new value is None, no set_attribute or
clear_attribute for a key with an unchanged value, and (all keys being
non-listener) no listener calls at all. -/
theorem claim_C4 {V : Type} [DecidableEq V] (noneV : V) (dom : Nat)
    (prev next : PropsMap V)
    (hp : (prev.map Prod.fst).Nodup) (hn : (next.map Prod.fst).Nodup)
    (hpe : ∀ p ∈ prev, isEvent p.1 = false) (hne : ∀ p ∈ next, isEvent p.1 = false)
    (k : Str) :
    (∀ a b, getv prev k = some a → getv next k = some b → a ≠ b →
      countSet (updateDom noneV dom prev next) k = 1) ∧
    (∀ a, getv prev k = some a → getv next k = none →
      countClear (updateDom noneV dom prev next) k = 1 ∧
        countSet (updateDom noneV dom prev next) k = 0) ∧
    (∀ b, getv prev k = none → getv next k = some b → b ≠ noneV →
      countSet (updateDom noneV dom prev next) k = 1) ∧
    (getv prev k = none → getv next k = some noneV →
      countSet (updateDom noneV dom prev next) k = 0) ∧
    (∀ a, getv prev k = some a → getv next k = some a →
      countSet (updateDom noneV dom prev next) k = 0 ∧
        countClear (updateDom noneV dom prev next) k = 0) ∧
    countListenerCalls (updateDom noneV dom prev next) = 0 := by
  refine ⟨?_, ?_, ?_, ?_, ?_, ?_⟩
  · intro a b ha hb hab
    rw [countSet_updateDom, countP_key_some next k b hn hb]
    have he : isEvent k = false := hne (k, b) (getv_mem _ _ _ hb)
    simp [he, ha, hab]
  · intro a ha hb
    constructor
    · rw [countClear_updateDom, countP_key_some prev k a hp ha]
      have he : isEvent k = false := hpe (k, a) (getv_mem _ _ _ ha)
      simp [he, hb]
    · rw [countSet_updateDom, countP_key_none next k hb]
  · intro b hpn hb hbn
    rw [countSet_updateDom, countP_key_some next k b hn hb]
    have he : isEvent k = false := hne (k, b) (getv_mem _ _ _ hb)
    simp [he, hpn, Ne.symm hbn]
  · intro hpn hb
    rw [countSet_updateDom, countP_key_some next k noneV hn hb]
    simp [hpn]
  · intro a ha hb
    constructor
    · rw [countSet_updateDom, countP_key_some next k a hn hb]
      simp [ha]
    · rw [countClear_updateDom, countP_key_some prev k a hp ha]
      simp [hb]
  · unfold updateDom countListenerCalls
    simp only [List.countP_append, List.countP_map, List.countP_filter, Function.comp_def,
      Bool.false_and, Bool.and_false, List.countP_false, Function.const_apply, Nat.zero_add,
      Nat.add_zero]
    rw [List.countP_eq_zero.mpr, List.countP_eq_zero.mpr]
    · intro p hp2
      simp [hne p hp2]
    · intro p hp2
      simp [hpe p hp2]

/-- C4 witness at a concrete pair of snapshots, with noneV = 0. -/
theorem claim_C4_witness :
    (((([("a".data, 1), ("b".data, 2), ("u".data, 9)] : PropsMap Nat).map Prod.fst).Nodup) ∧
      ((([("a".data, 5), ("c".data, 7), ("u".data, 9)] : PropsMap Nat).map Prod.fst).Nodup) ∧
      (∀ p ∈ ([("a".data, 1), ("b".data, 2), ("u".data, 9)] : PropsMap Nat), isEvent p.1 = false) ∧
      (∀ p ∈ ([("a".data, 5), ("c".data, 7), ("u".data, 9)] : PropsMap Nat), isEvent p.1 = false)) ∧
    ((∀ a b, getv ([("a".data, 1), ("b".data, 2), ("u".data, 9)] : PropsMap Nat) "a".data = some a →
      getv ([("a".data, 5), ("c".data, 7), ("u".data, 9)] : PropsMap Nat) "a".data = some b → a ≠ b →
      countSet (updateDom 0 0 [("a".data, 1), ("b".data, 2), ("u".data, 9)]
        [("a".data, 5), ("c".data, 7), ("u".data, 9)]) "a".data = 1) ∧
     (∀ a, getv ([("a".data, 1), ("b".data, 2), ("u".data, 9)] : PropsMap Nat) "a".data = some a →
      getv ([("a".data, 5), ("c".data, 7), ("u".data, 9)] : PropsMap Nat) "a".data = none →
      countClear (updateDom 0 0 [("a".data, 1), ("b".data, 2), ("u".data, 9)]
        [("a".data, 5), ("c".data, 7), ("u".data, 9)]) "a".data = 1 ∧
        countSet (updateDom 0 0 [("a".data, 1), ("b".data, 2), ("u".data, 9)]
          [("a".data, 5), ("c".data, 7), ("u".data, 9)]) "a".data = 0) ∧
     (∀ b, getv ([("a".data, 1), ("b".data, 2), ("u".data, 9)] : PropsMap Nat) "a".data = none →
      getv ([("a".data, 5), ("c".data, 7), ("u".data, 9)] : PropsMap Nat) "a".data = some b → b ≠ 0 →
      countSet (updateDom 0 0 [("a".data, 1), ("b".data, 2), ("u".data, 9)]
        [("a".data, 5), ("c".data, 7), ("u".data, 9)]) "a".data = 1) ∧
     (getv ([("a".data, 1), ("b".data, 2), ("u".data, 9)] : PropsMap Nat) "a".data = none →
      getv ([("a".data, 5), ("c".data, 7), ("u".data, 9)] : PropsMap Nat) "a".data = some 0 →
      countSet (updateDom 0 0 [("a".data, 1), ("b".data, 2), ("u".data, 9)]
        [("a".data, 5), ("c".data, 7), ("u".data, 9)]) "a".data = 0) ∧
     (∀ a, getv ([("a".data, 1), ("b".data, 2), ("u".data, 9)] : PropsMap Nat) "a".data = some a →
      getv ([("a".data, 5), ("c".data, 7), ("u".data, 9)] : PropsMap Nat) "a".data = some a →
      countSet (updateDom 0 0 [("a".data, 1), ("b".data, 2), ("u".data, 9)]
        [("a".data, 5), ("c".data, 7), ("u".data, 9)]) "a".data = 0 ∧
        countClear (updateDom 0 0 [("a".data, 1), ("b".data, 2), ("u".data, 9)]
          [("a".data, 5), ("c".data, 7), ("u".data, 9)]) "a".data = 0) ∧
     countListenerCalls (updateDom 0 0 ([("a".data, 1), ("b".data, 2), ("u".data, 9)] : PropsMap Nat)
        [("a".data, 5), ("c".data, 7), ("u".data, 9)]) = 0) :=
  ⟨⟨by decide, by decide, by decide, by decide⟩,
    claim_C4 0 0 _ _ (by decide) (by decide) (by decide) (by decide) ("a".data)⟩

/-- C5 [claim]: a listener-shaped property present in both snapshots with a
changed value yields exactly one remove_event_listener with the old handler,
in the part of the call sequence preceding the part holding exactly one
add_event_listener with the new handler; an unchanged listener value yields
neither call. -/
theorem claim_C5 {V : Type} [DecidableEq V] (noneV : V) (dom : Nat)
    (prev next : PropsMap V) (k : Str) (a b : V)
    (hp : (prev.map Prod.fst).Nodup) (hn : (next.map Prod.fst).Nodup)
    (hpe : ((prev.filter fun p => isEvent p.1).map fun p => evName p.1).Nodup)
    (hne : ((next.filter fun p => isEvent p.1).map fun p => evName p.1).Nodup)
    (hk : isEvent k = true) (ha : getv prev k = some a) (hb : getv next k = some b) :
    (a ≠ b → ∃ l1 l2, updateDom noneV dom prev next = l1 ++ l2 ∧
      countRemoveListener l1 (evName k) a = 1 ∧ countAddListener l1 (evName k) b = 0 ∧
      countRemoveListener l2 (evName k) a = 0 ∧ countAddListener l2 (evName k) b = 1) ∧
    (a = b → countRemoveListener (updateDom noneV dom prev next) (evName k) a = 0 ∧
      countAddListener (updateDom noneV dom prev next) (evName k) b = 0) := by
  constructor
  · intro hab
    refine ⟨((prev.filter fun p =>
        isEvent p.1 && (getv next p.1).isSome &&
          decide ((getv next p.1).getD noneV ≠ p.2)).map
          fun p => BCall.removeListener dom (evName p.1) p.2)
      ++ ((prev.filter fun p => !isEvent p.1 && (getv next p.1).isNone).map
          fun p => BCall.clearAttr dom p.1 p.2),
      ((next.filter fun p => !isEvent p.1 && decide ((getv prev p.1).getD noneV ≠ p.2)).map
          fun p => BCall.setAttr dom p.1 p.2)
      ++ ((next.filter fun p => isEvent p.1 && decide ((getv prev p.1).getD noneV ≠ p.2)).map
          fun p => BCall.addListener dom (evName p.1) p.2), ?_, ?_, ?_, ?_, ?_⟩
    · unfold updateDom
      simp [List.append_assoc]
    · have key : prev.countP (fun p => (isEvent p.1 && decide (evName p.1 = evName k)) &&
          ((getv next p.1).isSome && decide ((getv next p.1).getD noneV ≠ p.2) &&
            decide (p.2 = a))) = 1 := by
        rw [countP_event_key prev k a hp hpe hk ha]
        simp [hb, Ne.symm hab]
      rw [← key]
      unfold countRemoveListener
      simp only [List.countP_append, List.countP_map, List.countP_filter, Function.comp_def,
        Bool.false_and, Bool.and_false, List.countP_false, Function.const_apply, Nat.zero_add,
        Nat.add_zero]
      apply List.countP_congr
      intro x hx
      cases h1 : isEvent x.1 <;> cases h2 : decide (evName x.1 = evName k) <;>
        cases h3 : decide (x.2 = a) <;> cases h4 : (getv next x.1).isSome <;>
          cases h5 : decide ((getv next x.1).getD noneV ≠ x.2) <;> simp_all
    · unfold countAddListener
      simp only [List.countP_append, List.countP_map, List.countP_filter, Function.comp_def,
        Bool.false_and, Bool.and_false, List.countP_false, Function.const_apply, Nat.zero_add,
        Nat.add_zero]
    · unfold countRemoveListener
      simp only [List.countP_append, List.countP_map, List.countP_filter, Function.comp_def,
        Bool.false_and, Bool.and_false, List.countP_false, Function.const_apply, Nat.zero_add,
        Nat.add_zero]
    · have key : next.countP (fun p => (isEvent p.1 && decide (evName p.1 = evName k)) &&
          (decide ((getv prev p.1).getD noneV ≠ p.2) && decide (p.2 = b))) = 1 := by
        rw [countP_event_key next k b hn hne hk hb]
        simp [ha, hab]
      rw [← key]
      unfold countAddListener
      simp only [List.countP_append, List.countP_map, List.countP_filter, Function.comp_def,
        Bool.false_and, Bool.and_false, List.countP_false, Function.const_apply, Nat.zero_add,
        Nat.add_zero]
      apply List.countP_congr
      intro x hx
      cases h1 : isEvent x.1 <;> cases h2 : decide (evName x.1 = evName k) <;>
        cases h3 : decide (x.2 = b) <;>
          cases h4 : decide ((getv prev x.1).getD noneV ≠ x.2) <;> simp_all
  · intro hab
    subst hab
    constructor
    · have key : prev.countP (fun p => (isEvent p.1 && decide (evName p.1 = evName k)) &&
          ((getv next p.1).isSome && decide ((getv next p.1).getD noneV ≠ p.2) &&
            decide (p.2 = a))) = 0 := by
        rw [countP_event_key prev k a hp hpe hk ha]
        simp [hb]
      rw [countRemoveListener_updateDom, ← key]
    · have key : next.countP (fun p => (isEvent p.1 && decide (evName p.1 = evName k)) &&
          (decide ((getv prev p.1).getD noneV ≠ p.2) && decide (p.2 = a))) = 0 := by
        rw [countP_event_key next k a hn hne hk hb]
        simp [ha]
      rw [countAddListener_updateDom, ← key]

/-- C5 witness at a concrete pair of snapshots with a changed and an
unchanged listener. -/
theorem claim_C5_witness :
    (((([("onClick".data, 1), ("x".data, 2)] : PropsMap Nat).map Prod.fst).Nodup) ∧
      ((([("onClick".data, 3), ("x".data, 2)] : PropsMap Nat).map Prod.fst).Nodup) ∧
      ((([("onClick".data, 1), ("x".data, 2)] : PropsMap Nat).filter fun p => isEvent p.1).map
        fun p => evName p.1).Nodup ∧
      ((([("onClick".data, 3), ("x".data, 2)] : PropsMap Nat).filter fun p => isEvent p.1).map
        fun p => evName p.1).Nodup ∧
      isEvent "onClick".data = true ∧
      getv ([("onClick".data, 1), ("x".data, 2)] : PropsMap Nat) "onClick".data = some 1 ∧
      getv ([("onClick".data, 3), ("x".data, 2)] : PropsMap Nat) "onClick".data = some 3) ∧
    (((1 : Nat) ≠ 3 → ∃ l1 l2,
      updateDom 0 0 ([("onClick".data, 1), ("x".data, 2)] : PropsMap Nat)
          [("onClick".data, 3), ("x".data, 2)] = l1 ++ l2 ∧
      countRemoveListener l1 (evName "onClick".data) 1 = 1 ∧
      countAddListener l1 (evName "onClick".data) 3 = 0 ∧
      countRemoveListener l2 (evName "onClick".data) 1 = 0 ∧
      countAddListener l2 (evName "onClick".data) 3 = 1) ∧
    ((1 : Nat) = 3 →
      countRemoveListener (updateDom 0 0 ([("onClick".data, 1), ("x".data, 2)] : PropsMap Nat)
          [("onClick".data, 3), ("x".data, 2)]) (evName "onClick".data) 1 = 0 ∧
      countAddListener (updateDom 0 0 ([("onClick".data, 1), ("x".data, 2)] : PropsMap Nat)
          [("onClick".data, 3), ("x".data, 2)]) (evName "onClick".data) 3 = 0)) :=
  ⟨⟨by decide, by decide, by decide, by decide, by decide, by decide, by decide⟩,
    claim_C5 0 0 _ _ ("onClick".data) 1 3 (by decide) (by decide) (by decide) (by decide)
      (by decide) (by decide) (by decide)⟩

/-- C10 [claim]: a listener-shaped property present in the previous snapshot
but absent from the next one triggers no remove_event_listener call for its
event type — removal happens only when the name is present in both
snapshots with a differing value. -/
theorem claim_C10 {V : Type} [DecidableEq V] (noneV : V) (dom : Nat)
    (prev next : PropsMap V) (k : Str) (a : V)
    (hp : (prev.map Prod.fst).Nodup)
    (hpe : ((prev.filter fun p => isEvent p.1).map fun p => evName p.1).Nodup)
    (hk : isEvent k = true) (ha : getv prev k = some a)
    (habs : getv next k = none) :
    countRemoveListenerAny (updateDom noneV dom prev next) (evName k) = 0 := by
  have key : prev.countP (fun p => (isEvent p.1 && decide (evName p.1 = evName k)) &&
      ((getv next p.1).isSome && decide ((getv next p.1).getD noneV ≠ p.2))) = 0 := by
    rw [countP_event_key prev k a hp hpe hk ha]
    simp [habs]
  rw [countRemoveListenerAny_updateDom, ← key]

/-- C10 witness: a listener dropped between snapshots is never removed. -/
theorem claim_C10_witness :
    ((([("onClick".data, 1), ("x".data, 2)] : PropsMap Nat).map Prod.fst).Nodup ∧
      ((([("onClick".data, 1), ("x".data, 2)] : PropsMap Nat).filter fun p => isEvent p.1).map
        fun p => evName p.1).Nodup ∧
      isEvent "onClick".data = true ∧
      getv ([("onClick".data, 1), ("x".data, 2)] : PropsMap Nat) "onClick".data = some 1 ∧
      getv ([("x".data, 2)] : PropsMap Nat) "onClick".data = none) ∧
    countRemoveListenerAny (updateDom 0 0 ([("onClick".data, 1), ("x".data, 2)] : PropsMap Nat)
      [("x".data, 2)]) (evName "onClick".data) = 0 :=
  ⟨⟨by decide, by decide, by decide, by decide, by decide⟩,
    claim_C10 0 0 _ _ ("onClick".data) 1 (by decide) (by decide) (by decide) (by decide)
      (by decide)⟩


/-- Node descriptor (the VNode namedtuple of the source): a host type tag,
a property map and child descriptors.  Function components are treated in
the scheduler section; the render pipeline model covers host descriptor
trees, which is what reaches create_dom/update_dom. -/
inductive VNode (V : Type) where
  | node (type : Str) (props : PropsMap V) (children : List (VNode V))

/-- Type tag of a descriptor. -/
def VNode.type {V : Type} : VNode V → Str
  | .node t _ _ => t

/-- Property map of a descriptor. -/
def VNode.props {V : Type} : VNode V → PropsMap V
  | .node _ p _ => p

/-- Child descriptors of a descriptor. -/
def VNode.children {V : Type} : VNode V → List (VNode V)
  | .node _ _ cs => cs

mutual
/-- Number of nodes in a descriptor tree. -/
def vsize {V : Type} : VNode V → Nat
  | .node _ _ cs => 1 + vsizeL cs
/-- Number of nodes in a descriptor forest. -/
def vsizeL {V : Type} : List (VNode V) → Nat
  | [] => 0
  | c :: cs => vsize c + vsizeL cs
end

theorem vsize_eq_children {V : Type} (v : VNode V) : vsize v = 1 + vsizeL v.children := by
  cases v
  simp [vsize, VNode.children]

theorem vsize_pos {V : Type} (v : VNode V) : 0 < vsize v := by
  rw [vsize_eq_children]
  omega

/-- A completed work-in-progress fiber, by value: the fields commit_work
reads — type, props snapshot (props_snapshot), realized dom id, effect tag,
and the alternate fiber's props snapshot for UPDATE fibers — plus the
reconciled child fibers in sibling order. -/
inductive FiberT (V : Type) where
  | mk (type : Str) (snap : PropsMap V) (dom : Nat) (tag : EffectTag)
      (alt : Option (PropsMap V)) (kids : List (FiberT V))

/-- Type tag of a fiber. -/
def FiberT.type {V : Type} : FiberT V → Str
  | .mk t _ _ _ _ _ => t

/-- Props snapshot of a fiber. -/
def FiberT.snap {V : Type} : FiberT V → PropsMap V
  | .mk _ p _ _ _ _ => p

/-- Realized backend node id of a fiber. -/
def FiberT.dom {V : Type} : FiberT V → Nat
  | .mk _ _ d _ _ _ => d

/-- Effect tag of a fiber. -/
def FiberT.tag {V : Type} : FiberT V → EffectTag
  | .mk _ _ _ tag _ _ => tag

/-- Alternate fiber's props snapshot recorded on an UPDATE fiber. -/
def FiberT.alt {V : Type} : FiberT V → Option (PropsMap V)
  | .mk _ _ _ _ a _ => a

/-- Child fibers of a fiber in sibling order. -/
def FiberT.kids {V : Type} : FiberT V → List (FiberT V)
  | .mk _ _ _ _ _ ks => ks

mutual
/-- Number of fibers in a fiber tree. -/
def fsize {V : Type} : FiberT V → Nat
  | .mk _ _ _ _ _ kids => 1 + fsizeList kids
/-- Number of fibers in a fiber forest. -/
def fsizeList {V : Type} : List (FiberT V) → Nat
  | [] => 0
  | f :: fs => fsize f + fsizeList fs
end

theorem fsize_eq_kids {V : Type} (f : FiberT V) : fsize f = 1 + fsizeList f.kids := by
  cases f
  simp [fsize, FiberT.kids]

theorem fsize_pos {V : Type} (f : FiberT V) : 0 < fsize f := by
  rw [fsize_eq_kids]
  omega

/-- Embedding of the pairing performed by the reconcile_children loop
(src/pygui/__init__.py lines 224-281): the new element list and the old
child chain are walked in lockstep by position.  A position where both
exist and the types are equal yields a pair carrying the old fiber (the new
fiber will be an UPDATE reusing its dom); a position holding an element
without a same-type old fiber yields a pair with no old fiber (a PLACEMENT
with a fresh dom); an old fiber at a position without a same-type element
is appended to the deletions list, in position order. -/
def reconcileChildren {V : Type} :
    List (VNode V) → List (FiberT V) →
      List (VNode V × Option (FiberT V)) × List (FiberT V)
  | [], olds => ([], olds)
  | v :: vs, [] =>
    let r := reconcileChildren vs []
    ((v, none) :: r.1, r.2)
  | v :: vs, o :: os =>
    let r := reconcileChildren vs os
    if v.type = o.type then ((v, some o) :: r.1, r.2)
    else ((v, none) :: r.1, o :: r.2)

/-- Effect tag reconcile_children assigns to the new fiber of a pair:
UPDATE when a same-type old fiber is reused, PLACEMENT otherwise. -/
def pairTag {V : Type} : VNode V × Option (FiberT V) → EffectTag
  | (_, some _) => .update
  | (_, none) => .placement

theorem reconcileChildren_fst {V : Type} (vs : List (VNode V)) (olds : List (FiberT V)) :
    (reconcileChildren vs olds).1.map Prod.fst = vs := by
  induction vs generalizing olds with
  | nil => cases olds <;> simp [reconcileChildren]
  | cons v vs ih =>
    cases olds with
    | nil => simp [reconcileChildren, ih]
    | cons o os =>
      simp only [reconcileChildren]
      split <;> simp [ih]

/-- Measure for the render recursion: total descriptor size in a pair
list. -/
def pairsMeasure {V : Type} (ps : List (VNode V × Option (FiberT V))) : Nat :=
  vsizeL (ps.map Prod.fst)

/-- Render phase of one pass over a list of reconciled pairs, in the order
perform_unit_of_work visits fibers (pre-order: the fiber itself, then its
child subtrees, then its following siblings).  Per fiber
(update_host_component): an UPDATE fiber keeps the old fiber's dom and
makes no backend call; a PLACEMENT fiber realizes a fresh dom, emitting
create_element followed by the update_dom calls from an empty previous
snapshot (create_dom, lines 180-183); the new fiber records the element
props as its snapshot, and for UPDATE the old fiber's snapshot as its
alternate's.  Then its child descriptors are reconciled against the old
fiber's child fibers and processed recursively.  Returns the fibers in
sibling order, the backend calls in order, the deletions (paired with the
dom of the enclosing fiber, whose removal parent they will use) in engine
append order, and the next fresh dom id. -/
def renderPairs {V : Type} [DecidableEq V] (noneV : V) :
    List (VNode V × Option (FiberT V)) → Nat → Nat →
      List (FiberT V) × List (BCall V) × List (FiberT V × Nat) × Nat
  | [], _, nid => ([], [], [], nid)
  | (v, oldM) :: rest, pd, nid =>
    let dom := match oldM with | some o => o.dom | none => nid
    let createCalls : List (BCall V) := match oldM with
      | some _ => []
      | none => BCall.createEl v.type :: updateDom noneV nid [] v.props
    let nid1 := match oldM with | some _ => nid | none => nid + 1
    let tag : EffectTag := match oldM with | some _ => .update | none => .placement
    let alt : Option (PropsMap V) := match oldM with | some o => some o.snap | none => none
    let oldKids : List (FiberT V) := match oldM with | some o => o.kids | none => []
    let rc := reconcileChildren v.children oldKids
    let r1 := renderPairs noneV rc.1 dom nid1
    let r2 := renderPairs noneV rest pd r1.2.2.2
    (FiberT.mk v.type v.props dom tag alt r1.1 :: r2.1,
      createCalls ++ r1.2.1 ++ r2.2.1,
      (rc.2.map fun f => (f, dom)) ++ r1.2.2.1 ++ r2.2.2.1,
      r2.2.2.2)
termination_by ps _ _ => pairsMeasure ps
decreasing_by
  · simp only [pairsMeasure, List.map_cons, vsizeL, reconcileChildren_fst]
    rw [vsize_eq_children v]
    omega
  · simp only [pairsMeasure, List.map_cons, vsizeL]
    have := vsize_pos v
    omega

/-- One full pass of the engine: render(element, container) builds a wip
root fiber for the container (dom id 0, empty props, the single element as
child descriptor) whose alternate is the previous committed root; the work
loop then reconciles [element] against the previous root child chain and
processes every resulting fiber.  `prev` is the committed fiber of the
previous element (none on first render).  Returns the new root child fiber,
the render-phase backend calls, the deletions list and the next fresh dom
id. -/
def renderRoot {V : Type} [DecidableEq V] (noneV : V) (prev : Option (FiberT V))
    (v : VNode V) (nid : Nat) :
    Option (FiberT V) × List (BCall V) × List (FiberT V × Nat) × Nat :=
  let rc := reconcileChildren [v] prev.toList
  let r := renderPairs noneV rc.1 0 nid
  (r.1.head?, r.2.1, (rc.2.map fun f => (f, 0)) ++ r.2.2.1, r.2.2.2)

/-- The child/sibling linked view of a fiber tree as commit_work walks it:
first-child and next-sibling links, nil for an absent link. -/
inductive FTree (V : Type) where
  | nil
  | node (type : Str) (snap : PropsMap V) (dom : Nat) (tag : EffectTag)
      (alt : Option (PropsMap V)) (child sibling : FTree V)

/-- Number of nodes in an FTree. -/
def tsize {V : Type} : FTree V → Nat
  | .nil => 0
  | .node _ _ _ _ _ c s => 1 + tsize c + tsize s

/-- Conversion of a fiber chain (a list of siblings) into child/sibling
linked form. -/
def chainFT {V : Type} : List (FiberT V) → FTree V
  | [] => .nil
  | .mk t p d tag alt kids :: fs => .node t p d tag alt (chainFT kids) (chainFT fs)
termination_by l => fsizeList l
decreasing_by
  · simp only [fsizeList, fsize]
    omega
  · simp only [fsizeList, fsize]
    omega

/-- Measure of a commit queue: total fiber count queued. -/
def qMeasure {V : Type} (q : List (FTree V × Nat)) : Nat :=
  (q.map fun e => tsize e.1).sum

/-- Embedding of the commit traversal (commit_root / commit_work /
commit_deletion, src/pygui/__init__.py lines 283-337): a FIFO queue of
(fiber, nearest-ancestor dom) entries.  A nil entry returns immediately.
For a fiber entry: a PLACEMENT fiber (which owns a dom by commit time) is
inserted under the ancestor dom; an UPDATE fiber runs update_dom between
its alternate's snapshot and its own snapshot; a DELETION fiber has its dom
removed from the ancestor dom (commit_deletion — the model's fibers always
carry a realized dom, so the descend-to-child branch is not taken — which
also clears the fiber's child link before commit_work enqueues it, hence
nil is enqueued as its child).  Then the fiber's child (under this fiber's
dom) and sibling (under the same ancestor dom) are enqueued. -/
def commitQ {V : Type} [DecidableEq V] (noneV : V) :
    List (FTree V × Nat) → List (BCall V)
  | [] => []
  | (.nil, _) :: q => commitQ noneV q
  | (.node _ snap dom tag alt c s, pd) :: q =>
    let calls : List (BCall V) := match tag with
      | .placement => [BCall.insertEl dom pd]
      | .update => updateDom noneV dom (alt.getD []) snap
      | .deletion => [BCall.removeEl dom pd]
    let enq : List (FTree V × Nat) := match tag with
      | .deletion => [(FTree.nil, dom), (s, pd)]
      | _ => [(c, dom), (s, pd)]
    calls ++ commitQ noneV (q ++ enq)
termination_by q => (qMeasure q, q.length)
decreasing_by
  · simp only [qMeasure, List.map_cons, List.sum_cons, tsize, Nat.zero_add, List.length_cons]
    exact Prod.Lex.right _ (by omega)
  · cases tag <;>
      simp only [qMeasure, List.map_cons, List.sum_cons, List.map_append, List.sum_append,
        tsize, List.sum_nil, List.map_nil, Nat.add_zero, Nat.zero_add, List.length_append,
        List.length_cons] <;>
      exact Prod.Lex.left _ _ (by omega)

/-- Embedding of commit_root (lines 283-300): the deletions are enqueued
first, then the root fiber's child chain (the root wip fiber is the
container, dom id 0).  Each deletion is the old fiber retagged DELETION by
the reconcile loop, enqueued detached (the model collects deleted subtrees
by value, so their old sibling links are not re-walked). -/
def setTag {V : Type} : FiberT V → EffectTag → FiberT V
  | .mk t p d _ alt kids, tag => .mk t p d tag alt kids

/-- Backend calls of a full commit pass. -/
def commitRootCalls {V : Type} [DecidableEq V] (noneV : V)
    (dels : List (FiberT V × Nat)) (rootChain : List (FiberT V)) : List (BCall V) :=
  commitQ noneV ((dels.map fun e => (chainFT [setTag e.1 EffectTag.deletion], e.2))
    ++ [(chainFT rootChain, 0)])

theorem renderPairs_tags {V : Type} [DecidableEq V] (noneV : V) :
    ∀ (ps : List (VNode V × Option (FiberT V))) (pd nid : Nat),
      (renderPairs noneV ps pd nid).1.map FiberT.tag = ps.map pairTag := by
  intro ps
  induction ps with
  | nil =>
    intro pd nid
    simp [renderPairs]
  | cons p rest ih =>
    intro pd nid
    obtain ⟨v, oldM⟩ := p
    cases oldM with
    | none => simp [renderPairs, FiberT.tag, pairTag, ih]
    | some o => simp [renderPairs, FiberT.tag, pairTag, ih]

theorem reconcileChildren_counts {V : Type} (elts : List (VNode V)) (olds : List (FiberT V))
    (htypes : ∀ i, i < min elts.length olds.length →
      (elts[i]?.map VNode.type) = (olds[i]?.map FiberT.type)) :
    ((reconcileChildren elts olds).1.map pairTag).count EffectTag.update
        = min elts.length olds.length ∧
    ((reconcileChildren elts olds).1.map pairTag).count EffectTag.placement
        = elts.length - olds.length ∧
    (reconcileChildren elts olds).2.length = olds.length - elts.length := by
  induction elts generalizing olds with
  | nil =>
    simp [reconcileChildren]
  | cons v vs ih =>
    cases olds with
    | nil =>
      have h := ih [] (by intro i hi; simp at hi)
      simp only [reconcileChildren, List.map_cons, List.count_cons, List.length_cons,
        List.length_nil] at h ⊢
      simp [pairTag, h.1, h.2.1, h.2.2]
    | cons o os =>
      have hty : v.type = o.type := by
        have h0 := htypes 0 (by simp)
        simpa using h0
      have hrec := ih os (by
        intro i hi
        have := htypes (i + 1) (by simp at hi ⊢; omega)
        simpa using this)
      simp only [reconcileChildren, hty, if_true, List.map_cons, List.count_cons,
        List.length_cons] at hrec ⊢
      refine ⟨?_, ?_, ?_⟩
      · simp [pairTag, hrec.1]
        omega
      · simp [pairTag, hrec.2.1]
      · simp [hrec.2.2]

/-- C1 [claim]: reconcile_children on N elements against an old chain of M
fibers whose types agree pairwise at the first min(N,M) positions produces
exactly min(N,M) UPDATE pairs, exactly max(0,N-M) PLACEMENT pairs, appends
exactly max(0,M-N) old fibers to the deletions list, and the render phase
realizes the pair tags as the effect tags of the produced fibers. -/
theorem claim_C1 {V : Type} [DecidableEq V] (elts : List (VNode V)) (olds : List (FiberT V))
    (htypes : ∀ i, i < min elts.length olds.length →
      (elts[i]?.map VNode.type) = (olds[i]?.map FiberT.type)) :
    ((reconcileChildren elts olds).1.map pairTag).count EffectTag.update
        = min elts.length olds.length ∧
    ((reconcileChildren elts olds).1.map pairTag).count EffectTag.placement
        = elts.length - olds.length ∧
    (reconcileChildren elts olds).2.length = olds.length - elts.length ∧
    ∀ (noneV : V) (pd nid : Nat),
      (renderPairs noneV (reconcileChildren elts olds).1 pd nid).1.map FiberT.tag
        = (reconcileChildren elts olds).1.map pairTag := by
  obtain ⟨h1, h2, h3⟩ := reconcileChildren_counts elts olds htypes
  exact ⟨h1, h2, h3, fun noneV pd nid => renderPairs_tags noneV _ pd nid⟩

/-- C1 witness: two new elements against one type-matching old fiber give
one UPDATE, one PLACEMENT and no deletion. -/
theorem claim_C1_witness :
    (∀ i, i < min ([VNode.node "a".data ([] : PropsMap Nat) [],
          VNode.node "b".data [] []].length)
        ([FiberT.mk "a".data ([] : PropsMap Nat) 5 EffectTag.update none []].length) →
      (([VNode.node "a".data ([] : PropsMap Nat) [],
          VNode.node "b".data [] []][i]?).map VNode.type)
        = (([FiberT.mk "a".data ([] : PropsMap Nat) 5 EffectTag.update none []][i]?).map
            FiberT.type)) ∧
    (((reconcileChildren [VNode.node "a".data ([] : PropsMap Nat) [], VNode.node "b".data [] []]
        [FiberT.mk "a".data [] 5 EffectTag.update none []]).1.map pairTag).count
          EffectTag.update = 1 ∧
     ((reconcileChildren [VNode.node "a".data ([] : PropsMap Nat) [], VNode.node "b".data [] []]
        [FiberT.mk "a".data [] 5 EffectTag.update none []]).1.map pairTag).count
          EffectTag.placement = 1 ∧
     (reconcileChildren [VNode.node "a".data ([] : PropsMap Nat) [], VNode.node "b".data [] []]
        [FiberT.mk "a".data [] 5 EffectTag.update none []]).2.length = 0 ∧
     ∀ (noneV : Nat) (pd nid : Nat), (renderPairs noneV (reconcileChildren
          [VNode.node "a".data ([] : PropsMap Nat) [], VNode.node "b".data [] []]
          [FiberT.mk "a".data [] 5 EffectTag.update none []]).1 pd nid).1.map FiberT.tag
        = (reconcileChildren [VNode.node "a".data ([] : PropsMap Nat) [],
            VNode.node "b".data [] []]
            [FiberT.mk "a".data [] 5 EffectTag.update none []]).1.map pairTag) :=
  ⟨by decide, claim_C1 _ _ (by decide)⟩

/-- Root descriptor of the commit-order scenario: box with children a, b. -/
def boxScenario : VNode Nat :=
  VNode.node "box".data [] [VNode.node "a".data [] [], VNode.node "b".data [] []]

/-- First render pass of the box scenario into an empty container (dom id 0,
fresh backend ids from 1). -/
def boxPass : Option (FiberT Nat) × List (BCall Nat) × List (FiberT Nat × Nat) × Nat :=
  renderRoot 0 (none : Option (FiberT Nat)) boxScenario 1

/-- C3 [counterexample]: for the box scenario there is no id assignment
under which the commit emits create(a); create(b); insert(a,box);
insert(b,box); insert(box,container): the creations happen in the render
phase, and the commit emits only the three inserts, box-into-container
first. -/
theorem claim_C3_counterexample :
    ¬ ∃ (ib ia ibb : Nat),
      commitRootCalls 0 boxPass.2.2.1 boxPass.1.toList =
        [BCall.createEl "a".data, BCall.createEl "b".data,
         BCall.insertEl ia ib, BCall.insertEl ibb ib, BCall.insertEl ib 0] := by
  rintro ⟨ib, ia, ibb, h⟩
  have hev : commitRootCalls 0 boxPass.2.2.1 boxPass.1.toList =
      [BCall.insertEl 1 0, BCall.insertEl 2 1, BCall.insertEl 3 1] := by
    simp [boxPass, boxScenario, renderRoot, renderPairs, reconcileChildren, updateDom,
      commitRootCalls, commitQ, chainFT, VNode.type, VNode.props, VNode.children]
  rw [hev] at h
  have hlen := congrArg List.length h
  simp at hlen

/-- C3 [amended]: rendering the box scenario into an empty container emits
create(box); create(a); create(b) during the render phase — every backend
element is created before any insertion — and the commit emits
insert(box,container); insert(a,box); insert(b,box): each parent is
inserted before its children are inserted under it (ancestor before
descendant), and the deletions list is empty. -/
theorem claim_C3_amended :
    boxPass.2.1 =
      [BCall.createEl "box".data, BCall.createEl "a".data, BCall.createEl "b".data] ∧
    boxPass.2.2.1 = [] ∧
    commitRootCalls 0 boxPass.2.2.1 boxPass.1.toList =
      [BCall.insertEl 1 0, BCall.insertEl 2 1, BCall.insertEl 3 1] := by
  refine ⟨?_, ?_, ?_⟩ <;>
    simp [boxPass, boxScenario, renderRoot, renderPairs, reconcileChildren, updateDom,
      commitRootCalls, commitQ, chainFT, VNode.type, VNode.props, VNode.children]

mutual
/-- Well-formed descriptor: every property dict in the tree has pairwise
distinct keys (true of any tree built from Python dicts). -/
def WFv {V : Type} : VNode V → Prop
  | .node _ p cs => (p.map Prod.fst).Nodup ∧ WFvL cs
/-- Well-formed descriptor forest. -/
def WFvL {V : Type} : List (VNode V) → Prop
  | [] => True
  | c :: cs => WFv c ∧ WFvL cs
end

mutual
/-- A committed fiber matches a descriptor: same type, the descriptor props
as snapshot, and child fibers matching the child descriptors pairwise (the
shape a completed pass leaves behind). -/
def Matches {V : Type} : VNode V → FiberT V → Prop
  | .node t p cs, f => f.type = t ∧ f.snap = p ∧ MatchesL cs f.kids
termination_by v _ => (vsize v, 0)
decreasing_by
  exact Prod.Lex.left _ _ (by rw [vsize_eq_children]; simp [VNode.children])

/-- Pairwise matching of a descriptor forest against a fiber chain. -/
def MatchesL {V : Type} : List (VNode V) → List (FiberT V) → Prop
  | [], [] => True
  | _ :: _, [] => False
  | [], _ :: _ => False
  | v :: vs, f :: fs => Matches v f ∧ MatchesL vs fs
termination_by vs _ => (vsizeL vs, 1)
decreasing_by
  · by_cases h : vsizeL vs = 0
    · simp only [vsizeL, h, Nat.add_zero]
      exact Prod.Lex.right _ (by omega)
    · exact Prod.Lex.left _ _ (by simp only [vsizeL]; omega)
  · exact Prod.Lex.left _ _ (by
      simp only [vsizeL]
      have := vsize_pos v
      omega)
end

/-- Every fiber of a committed second-pass tree, in child/sibling form, is
an UPDATE whose alternate snapshot equals its own snapshot, with distinct
property keys: exactly the shape on which commit_work makes no backend
call. -/
def CleanT {V : Type} : FTree V → Prop
  | .nil => True
  | .node _ snap _ tag alt c s =>
    tag = EffectTag.update ∧ alt = some snap ∧ (snap.map Prod.fst).Nodup ∧
      CleanT c ∧ CleanT s

/-- No fiber of the tree carries a PLACEMENT or DELETION tag. -/
def noPlacementDeletion {V : Type} : FTree V → Prop
  | .nil => True
  | .node _ _ _ tag _ c s =>
    tag ≠ EffectTag.placement ∧ tag ≠ EffectTag.deletion ∧
      noPlacementDeletion c ∧ noPlacementDeletion s

theorem cleanT_noPlacementDeletion {V : Type} :
    ∀ t : FTree V, CleanT t → noPlacementDeletion t := by
  intro t
  induction t with
  | nil => intro h; trivial
  | node ty snap dom tag alt c s ihc ihs =>
    intro h
    obtain ⟨h1, h2, h3, h4, h5⟩ := h
    subst h1
    exact ⟨by simp, by simp, ihc h4, ihs h5⟩

theorem getv_of_mem_nodup {V : Type} [DecidableEq V] (l : PropsMap V) (k : Str) (v : V)
    (hnd : (l.map Prod.fst).Nodup) (hm : (k, v) ∈ l) : getv l k = some v := by
  induction l with
  | nil => simp at hm
  | cons p r ih =>
    obtain ⟨k1, v1⟩ := p
    simp only [List.map_cons, List.nodup_cons] at hnd
    rcases List.mem_cons.mp hm with h | h
    · injection h with h1 h2
      subst h1
      subst h2
      exact getv_cons_self _ _ _
    · have hk : k1 ≠ k := by
        intro hc
        subst hc
        exact hnd.1 (List.mem_map_of_mem Prod.fst h)
      rw [getv_cons_ne _ _ _ _ hk]
      exact ih hnd.2 h

/-- Diffing a snapshot against itself makes no backend call. -/
theorem updateDom_self {V : Type} [DecidableEq V] (noneV : V) (dom : Nat) (p : PropsMap V)
    (hnd : (p.map Prod.fst).Nodup) : updateDom noneV dom p p = [] := by
  unfold updateDom
  have hall : ∀ x ∈ p, getv p x.1 = some x.2 := by
    intro x hx
    exact getv_of_mem_nodup p x.1 x.2 hnd (by simpa using hx)
  rw [List.filter_eq_nil_iff.mpr, List.filter_eq_nil_iff.mpr, List.filter_eq_nil_iff.mpr,
    List.filter_eq_nil_iff.mpr]
  · simp
  · intro x hx
    simp [hall x hx]
  · intro x hx
    simp [hall x hx]
  · intro x hx
    simp [hall x hx]
  · intro x hx
    simp [hall x hx]

theorem reconcileChildren_nil_olds {V : Type} (vs : List (VNode V)) :
    reconcileChildren vs ([] : List (FiberT V)) = (vs.map fun v => (v, none), []) := by
  induction vs with
  | nil => simp [reconcileChildren]
  | cons v rest ih => simp [reconcileChildren, ih]

theorem renderPairs_length {V : Type} [DecidableEq V] (noneV : V)
    (ps : List (VNode V × Option (FiberT V))) (pd nid : Nat) :
    (renderPairs noneV ps pd nid).1.length = ps.length := by
  have h := renderPairs_tags noneV ps pd nid
  have := congrArg List.length h
  simpa using this

theorem commitQ_clean_aux {V : Type} [DecidableEq V] (noneV : V) :
    ∀ (n : Nat) (q : List (FTree V × Nat)), 2 * qMeasure q + q.length ≤ n →
      (∀ e ∈ q, CleanT e.1) → commitQ noneV q = [] := by
  intro n
  induction n with
  | zero =>
    intro q hq hc
    cases q with
    | nil => simp [commitQ]
    | cons e rest => simp at hq
  | succ n ih =>
    intro q hq hc
    cases q with
    | nil => simp [commitQ]
    | cons e rest =>
      obtain ⟨t, pd⟩ := e
      cases t with
      | nil =>
        have hstep : commitQ noneV ((FTree.nil, pd) :: rest) = commitQ noneV rest := by
          simp [commitQ]
        rw [hstep]
        refine ih rest ?_ (fun e he => hc e (List.mem_cons_of_mem _ he))
        simp only [qMeasure, List.map_cons, List.sum_cons, tsize, List.length_cons] at hq ⊢
        omega
      | node ty snap dom tag alt c s =>
        have hcl := hc (FTree.node ty snap dom tag alt c s, pd) (List.mem_cons_self _ _)
        simp only [CleanT] at hcl
        obtain ⟨h1, h2, h3, h4, h5⟩ := hcl
        subst h1
        subst h2
        have hstep : commitQ noneV
            ((FTree.node ty snap dom EffectTag.update (some snap) c s, pd) :: rest) =
            updateDom noneV dom snap snap ++ commitQ noneV (rest ++ [(c, dom), (s, pd)]) := by
          simp [commitQ]
        rw [hstep, updateDom_self _ _ _ h3, List.nil_append]
        refine ih (rest ++ [(c, dom), (s, pd)]) ?_ ?_
        · simp only [qMeasure, List.map_cons, List.sum_cons, List.map_append, List.sum_append,
            tsize, List.map_nil, List.sum_nil, List.length_cons, List.length_append,
            List.length_nil] at hq ⊢
          omega
        · intro e he
          rcases List.mem_append.mp he with he | he
          · exact hc e (List.mem_cons_of_mem _ he)
          · rcases List.mem_cons.mp he with he | he
            · rw [he]
              exact h4
            · rcases List.mem_cons.mp he with he | he
              · rw [he]
                exact h5
              · simp at he

theorem renderPairs_first_matches {V : Type} [DecidableEq V] (noneV : V) :
    ∀ (n : Nat) (vs : List (VNode V)), vsizeL vs ≤ n → ∀ (pd nid : Nat),
      MatchesL vs (renderPairs noneV (vs.map fun v => (v, none)) pd nid).1 := by
  intro n
  induction n with
  | zero =>
    intro vs h pd nid
    cases vs with
    | nil => simp [renderPairs, MatchesL]
    | cons v rest =>
      exfalso
      have := vsize_pos v
      simp only [vsizeL] at h
      omega
  | succ n ih =>
    intro vs h pd nid
    cases vs with
    | nil => simp [renderPairs, MatchesL]
    | cons v rest =>
      obtain ⟨t, p, cs⟩ := v
      have hszc : vsizeL cs ≤ n := by
        simp only [vsizeL] at h
        rw [vsize_eq_children] at h
        simp only [VNode.children] at h
        omega
      have hszr : vsizeL rest ≤ n := by
        simp only [vsizeL] at h
        have := vsize_pos (VNode.node t p cs)
        omega
      simp only [List.map_cons, renderPairs, reconcileChildren_nil_olds, VNode.type,
        VNode.props, VNode.children, MatchesL, Matches, FiberT.type, FiberT.snap, FiberT.kids]
      exact ⟨⟨trivial, trivial, ih cs hszc _ _⟩, ih rest hszr _ _⟩

theorem renderPairs_second {V : Type} [DecidableEq V] (noneV : V) :
    ∀ (n : Nat) (vs : List (VNode V)) (fs : List (FiberT V)), vsizeL vs ≤ n →
      WFvL vs → MatchesL vs fs → ∀ (pd nid : Nat),
      reconcileChildren vs fs =
        (List.zipWith (fun v f => (v, some f)) vs fs, ([] : List (FiberT V))) ∧
      (renderPairs noneV (List.zipWith (fun v f => (v, some f)) vs fs) pd nid).2.1 = [] ∧
      (renderPairs noneV (List.zipWith (fun v f => (v, some f)) vs fs) pd nid).2.2.1 = [] ∧
      (renderPairs noneV (List.zipWith (fun v f => (v, some f)) vs fs) pd nid).2.2.2 = nid ∧
      CleanT (chainFT
        (renderPairs noneV (List.zipWith (fun v f => (v, some f)) vs fs) pd nid).1) := by
  intro n
  induction n with
  | zero =>
    intro vs fs h hwf hm pd nid
    cases vs with
    | nil =>
      cases fs with
      | nil => simp [reconcileChildren, renderPairs, chainFT, CleanT]
      | cons f fsr => exact absurd hm (by simp [MatchesL])
    | cons v rest =>
      exfalso
      have := vsize_pos v
      simp only [vsizeL] at h
      omega
  | succ n ih =>
    intro vs fs h hwf hm pd nid
    cases vs with
    | nil =>
      cases fs with
      | nil => simp [reconcileChildren, renderPairs, chainFT, CleanT]
      | cons f fsr => exact absurd hm (by simp [MatchesL])
    | cons v rest =>
      cases fs with
      | nil => exact absurd hm (by simp [MatchesL])
      | cons f fsr =>
        obtain ⟨t, p, cs⟩ := v
        obtain ⟨ft, fsnap, fdom, ftag, falt, fkids⟩ := f
        simp only [MatchesL, Matches, FiberT.type, FiberT.snap, FiberT.kids] at hm
        obtain ⟨⟨hft, hfsnap, hmk⟩, hml⟩ := hm
        simp only [WFvL, WFv] at hwf
        obtain ⟨⟨hpnd, hwcs⟩, hwrest⟩ := hwf
        subst hft
        subst hfsnap
        have hszc : vsizeL cs ≤ n := by
          simp only [vsizeL] at h
          rw [vsize_eq_children] at h
          simp only [VNode.children] at h
          omega
        have hszr : vsizeL rest ≤ n := by
          simp only [vsizeL] at h
          have := vsize_pos (VNode.node ft fsnap cs)
          omega
        have hc1 := ih cs fkids hszc hwcs hmk fdom nid
        have hr1 := ih rest fsr hszr hwrest hml pd nid
        have hrec1 : reconcileChildren (VNode.node ft fsnap cs :: rest)
            (FiberT.mk ft fsnap fdom ftag falt fkids :: fsr) =
            ((VNode.node ft fsnap cs, some (FiberT.mk ft fsnap fdom ftag falt fkids)) ::
              List.zipWith (fun v f => (v, some f)) rest fsr,
              ([] : List (FiberT V))) := by
          have hrtail := (ih rest fsr hszr hwrest hml pd nid).1
          simp [reconcileChildren, VNode.type, FiberT.type, hrtail]
        refine ⟨by simpa using hrec1, ?_, ?_, ?_, ?_⟩
        all_goals simp only [List.zipWith_cons_cons, renderPairs, FiberT.snap, FiberT.dom,
          FiberT.kids, VNode.type, VNode.props, VNode.children, hc1.1, hc1.2.1, hc1.2.2.1,
          hc1.2.2.2.1, chainFT, CleanT]
        · simp [hr1.2.1]
        · simp [hr1.2.2.1]
        · exact hr1.2.2.2.1
        · simp [hpnd, hc1.2.2.2.2, hr1.2.2.2.2]

/-- C2 [claim]: re-rendering the identical, unchanged descriptor tree over
its committed pass yields a pass whose render phase makes no backend call,
whose fiber tree has no fiber tagged PLACEMENT or DELETION, whose deletions
list is empty, and whose commit makes no backend call at all — in
particular zero set_attribute, clear_attribute, add_event_listener and
remove_event_listener calls. -/
theorem claim_C2 {V : Type} [DecidableEq V] (noneV : V) (v : VNode V) (hwf : WFv v)
    (f1 : FiberT V) (calls1 : List (BCall V)) (dels1 : List (FiberT V × Nat)) (n1 : Nat)
    (h1 : renderRoot noneV none v 1 = (some f1, calls1, dels1, n1)) :
    ∃ f2, renderRoot noneV (some f1) v n1 = (some f2, [], [], n1) ∧
      noPlacementDeletion (chainFT [f2]) ∧
      commitRootCalls noneV [] [f2] = [] := by
  have hrc0 : reconcileChildren [v] ([] : List (FiberT V)) = ([(v, none)], []) := by
    simpa using reconcileChildren_nil_olds [v]
  have hfirst : renderRoot noneV (none : Option (FiberT V)) v 1 =
      ((renderPairs noneV [(v, none)] 0 1).1.head?, (renderPairs noneV [(v, none)] 0 1).2.1,
        (renderPairs noneV [(v, none)] 0 1).2.2.1,
        (renderPairs noneV [(v, none)] 0 1).2.2.2) := by
    simp [renderRoot, hrc0]
  have hcomp := hfirst.symm.trans h1
  simp only [Prod.ext_iff] at hcomp
  have hhead : (renderPairs noneV [(v, none)] 0 1).1.head? = some f1 := hcomp.1
  have hlen : (renderPairs noneV [(v, none)] 0 1).1.length = 1 := by
    simpa using renderPairs_length noneV [(v, none)] 0 1
  cases hfib : (renderPairs noneV [(v, none)] 0 1).1 with
  | nil =>
    rw [hfib] at hlen
    simp at hlen
  | cons f1h rest1 =>
    have hrest1 : rest1 = [] := by
      rw [hfib] at hlen
      simpa using hlen
    subst hrest1
    have hf1 : f1 = f1h := by
      rw [hfib] at hhead
      have hs : f1h = f1 := by simpa using hhead
      exact hs.symm
    subst hf1
    have hm := renderPairs_first_matches noneV (vsizeL [v]) [v] (Nat.le_refl _) 0 1
    have hmap : ([v].map fun v => (v, (none : Option (FiberT V)))) = [(v, none)] := by simp
    rw [hmap, hfib] at hm
    have hmv : Matches v f1 := by
      simp only [MatchesL] at hm
      exact hm.1
    have hwl : WFvL [v] := by
      simp only [WFvL]
      exact ⟨hwf, trivial⟩
    have hml2 : MatchesL [v] [f1] := by
      simp only [MatchesL]
      exact ⟨hmv, trivial⟩
    have hsec := renderPairs_second noneV (vsizeL [v]) [v] [f1] (Nat.le_refl _) hwl hml2 0 n1
    have hz : List.zipWith (fun v f => (v, some f)) [v] [f1] = [(v, some f1)] := by simp
    rw [hz] at hsec
    have hlen2 : (renderPairs noneV [(v, some f1)] 0 n1).1.length = 1 := by
      simpa using renderPairs_length noneV [(v, some f1)] 0 n1
    cases hfib2 : (renderPairs noneV [(v, some f1)] 0 n1).1 with
    | nil =>
      rw [hfib2] at hlen2
      simp at hlen2
    | cons f2 rest2 =>
      have hrest2 : rest2 = [] := by
        rw [hfib2] at hlen2
        simpa using hlen2
      subst hrest2
      have hclean := hsec.2.2.2.2
      rw [hfib2] at hclean
      refine ⟨f2, ?_, ?_, ?_⟩
      · simp [renderRoot, hsec.1, hfib2, hsec.2.1, hsec.2.2.1, hsec.2.2.2.1]
      · exact cleanT_noPlacementDeletion _ hclean
      · unfold commitRootCalls
        simp only [List.map_nil, List.nil_append]
        refine commitQ_clean_aux noneV (2 * qMeasure [(chainFT [f2], 0)] + 1) _ (by simp) ?_
        intro e he
        simp only [List.mem_singleton] at he
        rw [he]
        exact hclean

/-- C2 witness at a concrete descriptor tree with one prop and one child. -/
theorem claim_C2_witness :
    (WFv (VNode.node "x".data [("a".data, 1)] [VNode.node "y".data [] []] : VNode Nat) ∧
      renderRoot 0 none (VNode.node "x".data [("a".data, 1)] [VNode.node "y".data [] []]) 1 =
        (some (FiberT.mk "x".data [("a".data, 1)] 1 EffectTag.placement none
            [FiberT.mk "y".data [] 2 EffectTag.placement none []]),
          [BCall.createEl "x".data, BCall.setAttr 1 "a".data 1, BCall.createEl "y".data],
          [], 3)) ∧
    ∃ f2, renderRoot 0
        (some (FiberT.mk "x".data [("a".data, 1)] 1 EffectTag.placement none
          [FiberT.mk "y".data [] 2 EffectTag.placement none []]))
        (VNode.node "x".data [("a".data, 1)] [VNode.node "y".data [] []]) 3 =
        (some f2, [], [], 3) ∧
      noPlacementDeletion (chainFT [f2]) ∧
      commitRootCalls 0 [] [f2] = [] :=
  ⟨⟨by simp [WFv, WFvL], by
      simp [renderRoot, renderPairs, reconcileChildren, updateDom, getv, isEvent,
        VNode.type, VNode.props, VNode.children]
      decide⟩,
    claim_C2 0 (VNode.node "x".data [("a".data, 1)] [VNode.node "y".data [] []])
      (by simp [WFv, WFvL])
      (FiberT.mk "x".data [("a".data, 1)] 1 EffectTag.placement none
        [FiberT.mk "y".data [] 2 EffectTag.placement none []])
      [BCall.createEl "x".data, BCall.setAttr 1 "a".data 1, BCall.createEl "y".data]
      [] 3
      (by
        simp [renderRoot, renderPairs, reconcileChildren, updateDom, getv, isEvent,
          VNode.type, VNode.props, VNode.children]
        decide)⟩

/-- Address of a fiber inside a fiber tree, innermost child index first:
`i :: p` is child number `i` of the fiber at `p`; `[]` is the root. -/
abbrev Addr := List Nat

/-- Subtree of a fiber tree at an address (following child links). -/
def subtreeAt {V : Type} (t : FiberT V) : Addr → Option (FiberT V)
  | [] => some t
  | i :: p =>
    match subtreeAt t p with
    | some s => s.kids[i]?
    | none => none

/-- Whether the fiber at an address has a first child (`fiber.child`). -/
def hasChild {V : Type} (t : FiberT V) (a : Addr) : Bool :=
  match subtreeAt t a with
  | some s => !s.kids.isEmpty
  | none => false

/-- The climbing loop at the end of perform_unit_of_work (lines 162-166):
starting from the fiber itself, return its next sibling if it has one,
otherwise climb to the parent and repeat; at the root (no parent) the walk
is exhausted and none is returned. -/
def upSib {V : Type} (t : FiberT V) : Addr → Option Addr
  | [] => none
  | i :: p =>
    match subtreeAt t p with
    | some s => if i + 1 < s.kids.length then some ((i + 1) :: p) else upSib t p
    | none => none

/-- The next-unit computation of perform_unit_of_work (lines 158-166): the
fiber's first child when present, otherwise the first next sibling found
walking the parent chain upward, otherwise none. -/
def nextUnit {V : Type} (t : FiberT V) (a : Addr) : Option Addr :=
  if hasChild t a then some (0 :: a) else upSib t a

mutual
/-- Pre-order address sequence of the subtree at an address: the address
itself, then its child subtrees in order. -/
def preAddrs {V : Type} : FiberT V → Addr → List Addr
  | f, a => a :: preForest f.kids 0 a
termination_by f _ => (fsize f, 0)
decreasing_by
  exact Prod.Lex.left _ _ (by rw [fsize_eq_kids]; omega)

/-- Pre-order address sequence of a fiber forest whose first element is
child number `i` of the fiber at `a`. -/
def preForest {V : Type} : List (FiberT V) → Nat → Addr → List Addr
  | [], _, _ => []
  | k :: ks, i, a => preAddrs k (i :: a) ++ preForest ks (i + 1) a
termination_by ks _ _ => (fsizeList ks, 1)
decreasing_by
  · by_cases h : fsizeList ks = 0
    · simp only [fsizeList, h, Nat.add_zero]
      exact Prod.Lex.right _ (by omega)
    · exact Prod.Lex.left _ _ (by simp only [fsizeList]; omega)
  · exact Prod.Lex.left _ _ (by
      simp only [fsizeList]
      have := fsize_pos k
      omega)
end

/-- Addresses visited by iterating the next-unit computation, with fuel. -/
def walkFrom {V : Type} (t : FiberT V) : Nat → Option Addr → List Addr
  | 0, _ => []
  | _ + 1, none => []
  | n + 1, some a => a :: walkFrom t n (nextUnit t a)

/-- State of the next-unit iteration after a number of steps. -/
def stateAfter {V : Type} (t : FiberT V) : Nat → Option Addr → Option Addr
  | 0, s => s
  | _ + 1, none => none
  | n + 1, some a => stateAfter t n (nextUnit t a)

theorem walkFrom_none {V : Type} (t : FiberT V) : ∀ n, walkFrom t n none = [] := by
  intro n
  cases n <;> simp [walkFrom]

theorem stateAfter_none {V : Type} (t : FiberT V) : ∀ n, stateAfter t n none = none := by
  intro n
  cases n <;> simp [stateAfter]

theorem walkFrom_add {V : Type} (t : FiberT V) :
    ∀ (m n : Nat) (s : Option Addr),
      walkFrom t (m + n) s = walkFrom t m s ++ walkFrom t n (stateAfter t m s) := by
  intro m
  induction m with
  | zero =>
    intro n s
    simp [walkFrom, stateAfter]
  | succ m ih =>
    intro n s
    cases s with
    | none => simp [walkFrom_none, stateAfter_none]
    | some a =>
      have hshift : m + 1 + n = (m + n) + 1 := by omega
      rw [hshift]
      simp only [walkFrom, stateAfter]
      rw [ih n (nextUnit t a)]
      simp

theorem subtreeAt_child {V : Type} (t : FiberT V) (a : Addr) (s : FiberT V)
    (h : subtreeAt t a = some s) (i : Nat) : subtreeAt t (i :: a) = s.kids[i]? := by
  simp [subtreeAt, h]

theorem stateAfter_add {V : Type} (t : FiberT V) :
    ∀ (m n : Nat) (s : Option Addr),
      stateAfter t (m + n) s = stateAfter t n (stateAfter t m s) := by
  intro m
  induction m with
  | zero =>
    intro n s
    simp [stateAfter]
  | succ m ih =>
    intro n s
    cases s with
    | none => simp [stateAfter_none]
    | some a =>
      have hshift : m + 1 + n = (m + n) + 1 := by omega
      rw [hshift]
      simp only [stateAfter]
      exact ih n (nextUnit t a)

theorem getElem?_of_drop_cons {A : Type} :
    ∀ (l : List A) (i : Nat) (k : A) (r : List A), l.drop i = k :: r → l[i]? = some k := by
  intro l
  induction l with
  | nil =>
    intro i k r h
    simp at h
  | cons x xs ih =>
    intro i k r h
    cases i with
    | zero =>
      simp only [List.drop_zero] at h
      injection h with h1 h2
      simp [h1]
    | succ i =>
      simp only [List.drop_succ_cons] at h
      simpa using ih i k r h

theorem walk_both {V : Type} (t : FiberT V) :
    ∀ m : Nat,
      (∀ (s : FiberT V) (a : Addr), fsize s ≤ m → subtreeAt t a = some s →
        walkFrom t (fsize s) (some a) = preAddrs s a ∧
        stateAfter t (fsize s) (some a) = upSib t a) ∧
      (∀ (ks : List (FiberT V)) (i : Nat) (a : Addr) (sp : FiberT V),
        fsizeList ks ≤ m → ks ≠ [] → subtreeAt t a = some sp → sp.kids.drop i = ks →
        walkFrom t (fsizeList ks) (some (i :: a)) = preForest ks i a ∧
        stateAfter t (fsizeList ks) (some (i :: a)) = upSib t a) := by
  intro m
  induction m with
  | zero =>
    constructor
    · intro s a hsz _
      exfalso
      have := fsize_pos s
      omega
    · intro ks i a sp hsz hne _ _
      cases ks with
      | nil => exact absurd rfl hne
      | cons k ks2 =>
        exfalso
        have := fsize_pos k
        simp only [fsizeList] at hsz
        omega
  | succ m ih =>
    have htree : ∀ (s : FiberT V) (a : Addr), fsize s ≤ m + 1 → subtreeAt t a = some s →
        walkFrom t (fsize s) (some a) = preAddrs s a ∧
        stateAfter t (fsize s) (some a) = upSib t a := by
      intro s a hsz hsub
      have hfs : fsize s = fsizeList s.kids + 1 := by
        rw [fsize_eq_kids]
        omega
      rw [hfs] at hsz ⊢
      simp only [walkFrom, stateAfter]
      cases hkids : s.kids with
      | nil =>
        have hnc : nextUnit t a = upSib t a := by
          simp [nextUnit, hasChild, hsub, hkids]
        rw [hnc]
        constructor
        · simp [fsizeList, walkFrom, preAddrs, hkids, preForest]
        · simp [fsizeList, stateAfter]
      | cons k ks2 =>
        have hnc : nextUnit t a = some (0 :: a) := by
          simp [nextUnit, hasChild, hsub, hkids]
        rw [hnc]
        have hforest := ih.2 (k :: ks2) 0 a s
          (by rw [hkids] at hsz; simp only [fsizeList] at hsz ⊢; omega)
          (by simp) hsub (by simp [hkids])
        constructor
        · rw [hforest.1]
          simp [preAddrs, hkids]
        · exact hforest.2
    refine ⟨htree, ?_⟩
    intro ks i a sp hsz hne hsub hdrop
    cases ks with
    | nil => exact absurd rfl hne
    | cons k ks2 =>
      have hki : sp.kids[i]? = some k := getElem?_of_drop_cons sp.kids i k ks2 hdrop
      have hsubk : subtreeAt t (i :: a) = some k := by
        rw [subtreeAt_child t a sp hsub i, hki]
      have hlen : sp.kids.length - i = ks2.length + 1 := by
        have hl := congrArg List.length hdrop
        simpa [List.length_drop] using hl
      have hilt : i < sp.kids.length := by omega
      have hkbound : fsize k ≤ m + 1 := by
        simp only [fsizeList] at hsz
        have := fsize_pos k
        omega
      have hk := htree k (i :: a) hkbound hsubk
      simp only [fsizeList]
      rw [walkFrom_add t (fsize k) (fsizeList ks2) (some (i :: a)),
        stateAfter_add t (fsize k) (fsizeList ks2) (some (i :: a)), hk.1, hk.2]
      cases ks2 with
      | nil =>
        simp only [List.length_nil] at hlen
        have hnotlt : ¬ (i + 1 < sp.kids.length) := by omega
        have hup : upSib t (i :: a) = upSib t a := by
          simp [upSib, hsub, hnotlt]
        rw [hup]
        constructor
        · simp [fsizeList, walkFrom, preForest]
        · simp [fsizeList, stateAfter]
      | cons k2 kr =>
        have hlt : i + 1 < sp.kids.length := by
          simp only [List.length_cons] at hlen
          omega
        have hup : upSib t (i :: a) = some ((i + 1) :: a) := by
          simp [upSib, hsub, hlt]
        rw [hup]
        have hdrop2 : sp.kids.drop (i + 1) = k2 :: kr := by
          have h1 : sp.kids.drop (i + 1) = (sp.kids.drop i).drop 1 := by
            rw [List.drop_drop]
          rw [h1, hdrop]
          simp
        have hforest2 := ih.2 (k2 :: kr) (i + 1) a sp
          (by
            simp only [fsizeList] at hsz ⊢
            have := fsize_pos k
            omega)
          (by simp) hsub hdrop2
        constructor
        · rw [hforest2.1]
          simp [preForest]
        · exact hforest2.2

/-- Fiber type dispatch of perform_unit_of_work (lines 151-156): a fiber
type is either an opaque host tag or a callable component that, given the
props, produces one child descriptor. -/
inductive FiberKind (V : Type) where
  | host (tag : Str)
  | comp (f : PropsMap V → VNode V)

/-- The child descriptor list perform_unit_of_work reconciles for one
fiber: a callable type is invoked on the fiber's props and the single
resulting descriptor is reconciled as a one-element list
(update_function_component, lines 168-170); a host fiber reconciles its
stored child descriptors (update_host_component, lines 172-178). -/
def unitChildren {V : Type} (k : FiberKind V) (props : PropsMap V)
    (stored : List (VNode V)) : List (VNode V) :=
  match k with
  | .comp f => [f props]
  | .host _ => stored

/-- Whether perform_unit_of_work realizes a backend node for a fiber: only
a host fiber whose dom is absent (update_host_component lines 173-175). -/
def realizesDom {V : Type} (k : FiberKind V) (dom : Option Nat) : Bool :=
  match k with
  | .host _ => dom.isNone
  | .comp _ => false

/-- C6 [claim]: perform_unit_of_work processes exactly one fiber — invoking
the type on the props and reconciling the single resulting descriptor when
the type is callable, otherwise realizing the backend node when absent and
reconciling the stored child descriptors — and its next-unit computation
(child if present, else first sibling up the parent chain, else none),
iterated from the root, visits exactly the pre-order address sequence of
the fiber tree. -/
theorem claim_C6 {V : Type} (t : FiberT V) :
    (∀ n, walkFrom t (fsize t + n) (some []) = preAddrs t []) ∧
    (∀ a, nextUnit t a = if hasChild t a then some (0 :: a) else upSib t a) ∧
    (∀ (f : PropsMap V → VNode V) (props : PropsMap V) (stored : List (VNode V)),
      unitChildren (FiberKind.comp f) props stored = [f props]) ∧
    (∀ (tag : Str) (props : PropsMap V) (stored : List (VNode V)),
      unitChildren (FiberKind.host tag) props stored = stored) ∧
    (∀ tag : Str, realizesDom (FiberKind.host tag : FiberKind V) none = true) ∧
    (∀ (tag : Str) (d : Nat),
      realizesDom (FiberKind.host tag : FiberKind V) (some d) = false) ∧
    (∀ (f : PropsMap V → VNode V) (d : Option Nat),
      realizesDom (FiberKind.comp f) d = false) := by
  have hroot : subtreeAt t [] = some t := rfl
  have hmain := (walk_both t (fsize t)).1 t [] (Nat.le_refl _) hroot
  refine ⟨?_, fun a => rfl, fun f props stored => rfl, fun tag props stored => rfl,
    fun tag => rfl, fun tag d => rfl, fun f d => rfl⟩
  intro n
  rw [walkFrom_add t (fsize t) n (some []), hmain.1, hmain.2]
  have hupnil : upSib t ([] : Addr) = none := rfl
  rw [hupnil, walkFrom_none]
  simp

/-- Host event-loop modes (EventLoopType of src/pygui/types.py): the
default asyncio loop, the Qt toolkit loop, or fully synchronous. -/
inductive EventLoopType where
  | DEFAULT
  | QT
  | SYNC
deriving DecidableEq, Repr

/-- Modelled from the spec: the work loop guards its deadline check with
`not self.event_loop_type` (line 137), and the EventLoopType class lives in
src/pygui/types.py, which is absent from the sources, so the truthiness of
its members is taken from the spec — synchronous mode ignores deadlines and
runs to exhaustion in one step, while the non-synchronous modes yield when
a deadline is imminent.  `yieldGuard m` is the value of
`not self.event_loop_type` under mode `m`. -/
def yieldGuard : EventLoopType → Bool
  | .SYNC => false
  | _ => true

/-- One invocation of the work-loop drain (lines 132-137) over an abstract
pass: `pending` is the sequence of units of work remaining
(perform_unit_of_work consumes the head and yields the next), `ts` the
successive clock readings (time.perf_counter_ns) observed at the checkpoint
after each unit.  The loop performs the head unit and then, at the
checkpoint, yields iff the mode's yield guard holds and less than 1 ms
(1000000 ns) remains to the deadline; a deadline of none occurs only in
synchronous mode, where the guard short-circuits before reading it.
Returns the units performed in this invocation and those remaining. -/
def workLoopGo {U : Type} (mode : EventLoopType) (deadline : Option Int) :
    List U → List Int → List U × List U
  | [], _ => ([], [])
  | u :: us, ts =>
    let now := ts.headD 0
    let imminent := match deadline with
      | some d => decide (d - now < 1000000)
      | none => true
    if yieldGuard mode && imminent then ([u], us)
    else
      let r := workLoopGo mode deadline us ts.tail
      (u :: r.1, r.2)

/-- Outcome of one work-loop invocation: the units performed, the units
still pending, whether the loop re-requested idle work, whether it ran the
commit (it does when no unit remains and a wip root exists), and whether
the render callback fired. -/
structure LoopResult (U : Type) where
  performed : List U
  remaining : List U
  resumeRequested : Bool
  committed : Bool
  callbackFired : Bool
deriving DecidableEq, Repr

/-- Embedding of work_loop (lines 125-149): drain units until the deadline
guard fires or work runs out; then, if no unit remains and a wip root
exists, commit; if a unit remains request the host loop to resume later,
otherwise fire the render callback. -/
def workLoop {U : Type} (mode : EventLoopType) (deadline : Option Int)
    (pending : List U) (wip : Bool) (ts : List Int) : LoopResult U :=
  let r := workLoopGo mode deadline pending ts
  LoopResult.mk r.1 r.2 (!r.2.isEmpty) (r.2.isEmpty && wip) r.2.isEmpty

/-- Scheduling action taken by request_idle_work: either the work loop ran
synchronously to completion inside the call, or a continuation was
scheduled on the host loop with the computed deadline. -/
inductive SchedAction (U : Type) where
  | ranNow (res : LoopResult U)
  | deferred (deadline : Int)

/-- Embedding of request_idle_work (lines 76-123): compute the default
deadline (16 ms past now) when none is given; in SYNC mode call work_loop
immediately with deadline None and return only when it is done; otherwise
schedule the work loop on the host loop (asyncio call_soon or a zero-delay
single-shot Qt timer) for the computed deadline. -/
def requestIdleWork {U : Type} (mode : EventLoopType) (deadline : Option Int)
    (pending : List U) (wip : Bool) (ts : List Int) (now : Int) : SchedAction U :=
  let d := deadline.getD (now + 16 * 1000000)
  if mode = .SYNC then .ranNow (workLoop mode none pending wip ts)
  else .deferred d

/-- C7 [claim]: in SYNCHRONOUS mode, request_idle_work runs the whole pass
to exhaustion in its single blocking call regardless of any deadline or
clock readings — every pending unit is performed, nothing remains, no
resumption is requested, the commit runs exactly when a wip root exists,
and the render callback fires before control returns to the caller. -/
theorem claim_C7 {U : Type} (deadline : Option Int) (pending : List U) (wip : Bool)
    (ts : List Int) (now : Int) :
    requestIdleWork EventLoopType.SYNC deadline pending wip ts now =
      SchedAction.ranNow (LoopResult.mk pending [] false wip true) := by
  unfold requestIdleWork workLoop
  have hgo : ∀ (ps : List U) (tss : List Int),
      workLoopGo EventLoopType.SYNC (none : Option Int) ps tss = (ps, []) := by
    intro ps
    induction ps with
    | nil =>
      intro tss
      simp [workLoopGo]
    | cons u us ih =>
      intro tss
      simp [workLoopGo, yieldGuard, ih]
  simp [hgo]

/-- Whether the deadline is imminent (less than 1 ms away) at the
checkpoint reached after performing unit number `i`, as read from the
clock trace. -/
def imminentAt (deadline : Int) (ts : List Int) (i : Nat) : Bool :=
  decide (deadline - ts.getD i 0 < 1000000)

theorem headD_eq_getD_zero (ts : List Int) : ts.headD 0 = ts.getD 0 0 := by
  cases ts <;> rfl

theorem tail_getD (ts : List Int) (i : Nat) : ts.tail.getD i 0 = ts.getD (i + 1) 0 := by
  cases ts <;> rfl

theorem yieldGuard_of_ne_sync (mode : EventLoopType) (h : mode ≠ EventLoopType.SYNC) :
    yieldGuard mode = true := by
  cases mode <;> simp_all [yieldGuard]

theorem workLoopGo_yieldAt {U : Type} (mode : EventLoopType)
    (hg : yieldGuard mode = true) (d : Int) :
    ∀ (pending : List U) (j : Nat) (ts : List Int), j < pending.length →
      imminentAt d ts j = true → (∀ i, i < j → imminentAt d ts i = false) →
      workLoopGo mode (some d) pending ts = (pending.take (j + 1), pending.drop (j + 1)) := by
  intro pending
  induction pending with
  | nil =>
    intro j ts hj
    simp at hj
  | cons u us ih =>
    intro j ts hj himm hbefore
    cases j with
    | zero =>
      have hnow : imminentAt d ts 0 = true := himm
      simp only [workLoopGo, headD_eq_getD_zero]
      rw [show (decide (d - ts.getD 0 0 < 1000000)) = true from hnow, hg]
      simp
    | succ j =>
      have h0 : imminentAt d ts 0 = false := hbefore 0 (Nat.succ_pos j)
      simp only [workLoopGo, headD_eq_getD_zero]
      rw [show (decide (d - ts.getD 0 0 < 1000000)) = false from h0]
      simp only [Bool.and_false, if_false]
      have hrec := ih j ts.tail (by simpa using hj)
        (by rw [imminentAt, tail_getD]; exact himm)
        (by
          intro i hi
          rw [imminentAt, tail_getD]
          exact hbefore (i + 1) (by omega))
      rw [hrec]
      simp

/-- C8 [claim]: in a non-synchronous mode, when the work loop reaches the
between-units checkpoint after unit `j` with the deadline imminent (and no
earlier checkpoint was imminent), it performs exactly the units up to and
including `j` — the unit in progress when the deadline passes is completed,
never aborted — starts no further unit in that invocation, and when units
remain it requests the host loop to resume later instead of committing or
firing the callback. -/
theorem claim_C8 {U : Type} (mode : EventLoopType) (hm : mode ≠ EventLoopType.SYNC)
    (d : Int) (pending : List U) (wip : Bool) (ts : List Int) (j : Nat)
    (hj : j < pending.length) (himm : imminentAt d ts j = true)
    (hbefore : ∀ i, i < j → imminentAt d ts i = false) :
    (workLoop mode (some d) pending wip ts).performed = pending.take (j + 1) ∧
    (workLoop mode (some d) pending wip ts).remaining = pending.drop (j + 1) ∧
    (pending.drop (j + 1) ≠ [] →
      (workLoop mode (some d) pending wip ts).resumeRequested = true ∧
      (workLoop mode (some d) pending wip ts).committed = false ∧
      (workLoop mode (some d) pending wip ts).callbackFired = false) := by
  have hgo := workLoopGo_yieldAt mode (yieldGuard_of_ne_sync mode hm) d pending j ts hj
    himm hbefore
  unfold workLoop
  rw [hgo]
  refine ⟨rfl, rfl, ?_⟩
  intro hne
  have hnonempty : (pending.drop (j + 1)).isEmpty = false := by
    cases hdrop : pending.drop (j + 1) with
    | nil => exact absurd hdrop hne
    | cons a l => simp
  simp [hnonempty]

/-- C8 witness: three units, deadline already passed at the first
checkpoint, asyncio mode. -/
theorem claim_C8_witness :
    (EventLoopType.DEFAULT ≠ EventLoopType.SYNC ∧
      0 < ([10, 20, 30] : List Nat).length ∧
      imminentAt 0 [5, 6, 7] 0 = true ∧ (∀ i, i < 0 → imminentAt 0 [5, 6, 7] i = false)) ∧
    ((workLoop EventLoopType.DEFAULT (some 0) ([10, 20, 30] : List Nat) true
        [5, 6, 7]).performed = [10, 20, 30].take (0 + 1) ∧
     (workLoop EventLoopType.DEFAULT (some 0) ([10, 20, 30] : List Nat) true
        [5, 6, 7]).remaining = [10, 20, 30].drop (0 + 1) ∧
     (([10, 20, 30] : List Nat).drop (0 + 1) ≠ [] →
      (workLoop EventLoopType.DEFAULT (some 0) ([10, 20, 30] : List Nat) true
        [5, 6, 7]).resumeRequested = true ∧
      (workLoop EventLoopType.DEFAULT (some 0) ([10, 20, 30] : List Nat) true
        [5, 6, 7]).committed = false ∧
      (workLoop EventLoopType.DEFAULT (some 0) ([10, 20, 30] : List Nat) true
        [5, 6, 7]).callbackFired = false)) :=
  ⟨⟨by decide, by decide, by decide, by decide⟩,
    claim_C8 EventLoopType.DEFAULT (by decide) 0 ([10, 20, 30] : List Nat) true
      [5, 6, 7] 0 (by decide) (by decide) (by decide)⟩

/-- Mutable fiber record for the render-trigger model: exactly the fields
state_updated reads and writes (dom, props, children, alternate, watcher). -/
structure FiberS (V : Type) where
  dom : Option Nat
  props : PropsMap V
  children : List (VNode V)
  alternate : Option Nat
  watcher : Bool

/-- Engine state around state_updated: fibers live in a heap indexed by
Nat ids (the alternate field is an id into the same heap, mirroring the
mutable cross-references of the Python objects), plus the engine-level
fields the function touches. -/
structure EngineS (V : Type) where
  fibers : Nat → FiberS V
  currentRoot : Option Nat
  wipRoot : Option Nat
  nextUnit : Option Nat
  deletions : List Nat
  nextId : Nat

/-- Clearing the watcher of one fiber in the heap
(`fiber.watcher = None`, line 188). -/
def clearWatcher {V : Type} (fs : Nat → FiberS V) (fid : Nat) : Nat → FiberS V :=
  fun n =>
    if n = fid then
      let f := fs fid
      FiberS.mk f.dom f.props f.children f.alternate false
    else fs n

/-- Overwriting the wip-root fiber's fields from the current root
(lines 195-198): dom, props and children are copied, the alternate is
pointed at the current root; the fiber's watcher keeps whatever value it
had. -/
def assignWip {V : Type} (fs : Nat → FiberS V) (wid : Nat) (dd : Option Nat)
    (pp : PropsMap V) (cc : List (VNode V)) (c : Nat) : Nat → FiberS V :=
  fun n =>
    if n = wid then FiberS.mk dd pp cc (some c) (fs wid).watcher
    else fs n

/-- Embedding of state_updated (src/pygui/__init__.py lines 185-201): clear
the notifying fiber's watcher; reuse the current root's alternate as the
new wip root, or allocate a fresh fiber when it has none (`(current and
current.alternate) or Fiber()`); copy the current root's dom, props and
children onto it and point its alternate at the current root; set the wip
root and the next unit of work to it and reset the deletions list.  When
there is no current root the Python code raises AttributeError (it reads
`.dom` of None); the model returns none there. -/
def stateUpdated {V : Type} (e : EngineS V) (fid : Nat) : Option (EngineS V) :=
  let fibers1 := clearWatcher e.fibers fid
  match e.currentRoot with
  | none => none
  | some c =>
    let cw := fibers1 c
    let wid := cw.alternate.getD e.nextId
    let nextId1 := match cw.alternate with
      | some _ => e.nextId
      | none => e.nextId + 1
    let fibers2 := assignWip fibers1 wid cw.dom cw.props cw.children c
    some (EngineS.mk fibers2 e.currentRoot (some wid) (some wid) [] nextId1)

theorem clearWatcher_dom {V : Type} (fs : Nat → FiberS V) (fid n : Nat) :
    (clearWatcher fs fid n).dom = (fs n).dom := by
  by_cases h : n = fid <;> simp [clearWatcher, h]

theorem clearWatcher_props {V : Type} (fs : Nat → FiberS V) (fid n : Nat) :
    (clearWatcher fs fid n).props = (fs n).props := by
  by_cases h : n = fid <;> simp [clearWatcher, h]

theorem clearWatcher_children {V : Type} (fs : Nat → FiberS V) (fid n : Nat) :
    (clearWatcher fs fid n).children = (fs n).children := by
  by_cases h : n = fid <;> simp [clearWatcher, h]

theorem clearWatcher_self {V : Type} (fs : Nat → FiberS V) (fid : Nat) :
    (clearWatcher fs fid fid).watcher = false := by
  simp [clearWatcher]

theorem assignWip_at {V : Type} (fs : Nat → FiberS V) (wid : Nat) (dd : Option Nat)
    (pp : PropsMap V) (cc : List (VNode V)) (c : Nat) :
    assignWip fs wid dd pp cc c wid = FiberS.mk dd pp cc (some c) (fs wid).watcher := by
  simp [assignWip]

theorem assignWip_watcher {V : Type} (fs : Nat → FiberS V) (wid fid : Nat)
    (dd : Option Nat) (pp : PropsMap V) (cc : List (VNode V)) (c : Nat)
    (h : (fs fid).watcher = false) :
    (assignWip fs wid dd pp cc c fid).watcher = false := by
  by_cases hw : fid = wid
  · subst hw
    simp [assignWip, h]
  · simp [assignWip, hw, h]

/-- C9 [claim]: after a state-mutation notification on a fiber, the engine
holds a work-in-progress root whose dom, props and children are exactly
those of the current root, whose alternate is the current root, the
notifying fiber's watch handle is cleared, the deletions list is reset to
empty and the next unit of work is the new wip root. -/
theorem claim_C9 {V : Type} (e : EngineS V) (fid c : Nat)
    (hc : e.currentRoot = some c) :
    ∃ e' w, stateUpdated e fid = some e' ∧ e'.wipRoot = some w ∧
      (e'.fibers w).dom = (e.fibers c).dom ∧
      (e'.fibers w).props = (e.fibers c).props ∧
      (e'.fibers w).children = (e.fibers c).children ∧
      (e'.fibers w).alternate = some c ∧
      (e'.fibers fid).watcher = false ∧
      e'.deletions = [] ∧ e'.nextUnit = e'.wipRoot := by
  have hmain : stateUpdated e fid =
      some (EngineS.mk
        (assignWip (clearWatcher e.fibers fid)
          ((clearWatcher e.fibers fid c).alternate.getD e.nextId)
          (clearWatcher e.fibers fid c).dom (clearWatcher e.fibers fid c).props
          (clearWatcher e.fibers fid c).children c)
        e.currentRoot
        (some ((clearWatcher e.fibers fid c).alternate.getD e.nextId))
        (some ((clearWatcher e.fibers fid c).alternate.getD e.nextId))
        []
        (match (clearWatcher e.fibers fid c).alternate with
          | some _ => e.nextId
          | none => e.nextId + 1)) := by
    unfold stateUpdated
    rw [hc]
  refine ⟨_, (clearWatcher e.fibers fid c).alternate.getD e.nextId, hmain,
    rfl, ?_, ?_, ?_, ?_, ?_, rfl, rfl⟩
  · simp [assignWip_at, clearWatcher_dom]
  · simp [assignWip_at, clearWatcher_props]
  · simp [assignWip_at, clearWatcher_children]
  · simp [assignWip_at]
  · dsimp only
    exact assignWip_watcher _ _ _ _ _ _ _ (clearWatcher_self e.fibers fid)

/-- C9 witness at a concrete engine with a committed current root. -/
theorem claim_C9_witness :
    ((EngineS.mk (fun _ => FiberS.mk (some 7) [("k".data, 1)] [] none true)
        (some 0) none none [3] 5 : EngineS Nat).currentRoot = some 0) ∧
    (∃ e' w, stateUpdated (EngineS.mk (fun _ => FiberS.mk (some 7) [("k".data, 1)] [] none true)
        (some 0) none none [3] 5 : EngineS Nat) 2 = some e' ∧ e'.wipRoot = some w ∧
      (e'.fibers w).dom = ((EngineS.mk (fun _ => FiberS.mk (some 7) [("k".data, 1)] [] none true)
        (some 0) none none [3] 5 : EngineS Nat).fibers 0).dom ∧
      (e'.fibers w).props = ((EngineS.mk (fun _ => FiberS.mk (some 7) [("k".data, 1)] [] none true)
        (some 0) none none [3] 5 : EngineS Nat).fibers 0).props ∧
      (e'.fibers w).children = ((EngineS.mk (fun _ => FiberS.mk (some 7) [("k".data, 1)] [] none true)
        (some 0) none none [3] 5 : EngineS Nat).fibers 0).children ∧
      (e'.fibers w).alternate = some 0 ∧
      (e'.fibers 2).watcher = false ∧
      e'.deletions = [] ∧ e'.nextUnit = e'.wipRoot) :=
  ⟨rfl, claim_C9 (EngineS.mk (fun _ => FiberS.mk (some 7) [("k".data, 1)] [] none true)
      (some 0) none none [3] 5) 2 0 rfl⟩
